import Mathlib

/-!
Shallow embedding of the evaluation / cross-validation engine of the
`gpu-ml-framework` repository (files `src/eval/metrics.py` and
`src/train/run_cv.py`), together with proofs about it.

Labels (class names) are embedded as naturals; probabilities as rationals.
NumPy / scikit-learn primitives used by the two files are embedded with the
exact semantics of the library calls (`np.max`, `np.argmax`, `np.linspace`,
`np.percentile`, `sklearn.metrics.brier_score_loss`,
`sklearn.metrics.classification_report`, `sklearn.metrics.confusion_matrix`,
`sklearn.model_selection.StratifiedKFold` validation), as documented on each
definition.  Floating-point rounding is not modelled: arithmetic is exact.
-/

namespace GpuMl

/-- Class labels are opaque categorical values; we embed them as naturals. -/
abbrev Label := ℕ

/-! ## NumPy primitives -/

/-- `np.max` over a one-dimensional array, as applied row-wise by
`probas.max(axis=1)` in `expected_calibration_error` (metrics.py line 26).
NumPy raises on an empty array; the embedding returns the junk value 0 there
and every theorem that needs it carries a nonemptiness hypothesis. -/
def npMax : List ℚ → ℚ
  | [] => 0
  | x :: xs => xs.foldl max x

/-- `np.argmax` over a one-dimensional array: the index of the *first*
occurrence of the maximum (NumPy documents that ties are resolved in favour
of the lowest index).  Used by `probas.argmax(axis=1)` in metrics.py
lines 27 and 44. -/
def npArgmax : List ℚ → ℕ
  | [] => 0
  | [_] => 0
  | x :: y :: xs => if x < npMax (y :: xs) then npArgmax (y :: xs) + 1 else 0

/-- `np.mean` of a one-dimensional array: sum divided by length.
NumPy yields NaN on an empty array; in the embedding `0 / 0 = 0`, and every
theorem whose meaning depends on the mean carries a nonemptiness hypothesis. -/
def npMean (xs : List ℚ) : ℚ := xs.sum / xs.length

/-! ## Expected calibration error (metrics.py lines 25–40) -/

/-- metrics.py line 26: `confidences = probas.max(axis=1)`. -/
def confidences (p : List (List ℚ)) : List ℚ := p.map npMax

/-- metrics.py line 27: `predictions = probas.argmax(axis=1)`. -/
def predictions (p : List (List ℚ)) : List ℕ := p.map npArgmax

/-- metrics.py lines 28–29: `correct = (classes_np[predictions] == y_true)`.
NumPy fancy indexing faults when a prediction index is out of the class
range; the embedding totalises it with `getD`.  Inside `evaluate` the
out-of-range case cannot be reached, because `evaluate` already faults on
line 44 in that situation. -/
def corrects (y : List Label) (p : List (List ℚ)) (classes : List Label) :
    List Bool :=
  List.zipWith (fun pr t => classes.getD pr 0 == t) (predictions p) y

/-- metrics.py line 30: `bin_bounds = np.linspace(0.0, 1.0, bins + 1)`,
whose `i`-th entry is `i / bins`. -/
def binBounds (bins : ℕ) : List ℚ :=
  (List.range (bins + 1)).map (fun i : ℕ => (i : ℚ) / (bins : ℚ))

/-- metrics.py lines 33–34, for bin `i`: the (confidence, correctness)
pairs of the samples falling in bin `i`, i.e. those whose confidence `c`
satisfies `lo < c ≤ hi` with `lo, hi` the `i`-th and `(i+1)`-st entries of
`bin_bounds` (the mask `(confidences > lo) & (confidences <= hi)`). -/
def binPairs (y : List Label) (p : List (List ℚ)) (classes : List Label)
    (bins i : ℕ) : List (ℚ × Bool) :=
  ((confidences p).zip (corrects y p classes)).filter
    (fun cb => decide ((binBounds bins).getD i 0 < cb.1) &&
               decide (cb.1 ≤ (binBounds bins).getD (i + 1) 0))

/-- metrics.py lines 35–39: contribution of bin `i` to the accumulated
`ece` sum — `0` for an empty bin (the `continue`), otherwise
`mask.mean() * abs(acc - conf)` where `mask.mean()` is the bin population
over the total sample count, `acc` the mean correctness in the bin and
`conf` the mean confidence in the bin. -/
def binTerm (y : List Label) (p : List (List ℚ)) (classes : List Label)
    (bins i : ℕ) : ℚ :=
  let sel := binPairs y p classes bins i
  if sel = [] then 0
  else ((sel.length : ℚ) / (confidences p).length) *
    |npMean (sel.map (fun cb => if cb.2 then 1 else 0)) -
      npMean (sel.map Prod.fst)|

/-- metrics.py lines 25–40 (`expected_calibration_error`): the sum of the
per-bin contributions over the `bins` (default 15) equal-width bins. -/
def expected_calibration_error (y : List Label) (p : List (List ℚ))
    (classes : List Label) (bins : ℕ := 15) : ℚ :=
  ((List.range bins).map (binTerm y p classes bins)).sum

/-! ## Multiclass Brier score (metrics.py lines 17–22) -/

/-- The Python exceptions that the metrics code can surface: NumPy's
IndexError (out-of-range indexing) and the ValueError raised by the
scikit-learn validators. -/
inductive EvalErr where
  | indexError : EvalErr
  | valueError : EvalErr
deriving DecidableEq

/-- Column access `probas[:, i]` (metrics.py line 21): NumPy raises an
IndexError when `i` is out of range; the rows of a NumPy 2-D array all
have the same width. -/
def getCol (p : List (List ℚ)) (i : ℕ) : Option (List ℚ) :=
  p.mapM (fun row => row[i]?)

/-- sklearn.metrics.brier_score_loss(y_bin, col) (metrics.py line 21):
the library validates that the two arrays have equal length
(check_consistent_length) and that the probabilities lie within [0, 1],
raising ValueError otherwise; since the first argument produced on line 20
is {0,1}-valued, pos_label resolves to 1 and the returned score is the
mean of the squared differences. -/
def brier_score_loss (yBin : List ℚ) (prob : List ℚ) : Except EvalErr ℚ :=
  if yBin.length ≠ prob.length then Except.error EvalErr.valueError
  else if prob.any (fun q => decide (q < 0) || decide (1 < q)) then
    Except.error EvalErr.valueError
  else Except.ok (npMean (List.zipWith (fun a b => (a - b) ^ 2) yBin prob))

/-- metrics.py lines 17–22 (`multiclass_brier`): for each class (index i,
name c) binarize y_true against c (line 20), score column i of the matrix
with brier_score_loss (line 21), and return the mean of the per-class
scores (line 22). -/
def multiclass_brier (y : List Label) (p : List (List ℚ))
    (classes : List Label) : Except EvalErr ℚ := do
  let scores ← classes.enum.mapM (fun ic =>
    match getCol p ic.1 with
    | none => Except.error EvalErr.indexError
    | some col => brier_score_loss
        (y.map (fun t => if t = ic.2 then (1:ℚ) else 0)) col)
  return npMean scores

/-- Column `i` of the matrix as a total function (NumPy matrices are
rectangular, so inside the preconditions this agrees with `getCol`). -/
def colD (p : List (List ℚ)) (i : ℕ) : List ℚ :=
  p.map (fun row => row.getD i 0)

/-- The Brier formula as the specification words it: the mean over the
classes `c` of the mean squared error between the one-vs-rest binary
indicator of `c` and the `c`-th column of the matrix. -/
def multiclassBrierSpec (y : List Label) (p : List (List ℚ))
    (classes : List Label) : ℚ :=
  npMean (classes.enum.map (fun ic =>
    npMean (List.zipWith (fun a b => (a - b) ^ 2)
      (y.map (fun t => if t = ic.2 then (1:ℚ) else 0)) (colD p ic.1))))

/-- Every row of `p` is a one-hot vector whose 1 sits in the column of the
sample's true label. -/
def oneHotAtTruth (y : List Label) (p : List (List ℚ))
    (classes : List Label) : Prop :=
  ∀ j, j < p.length → ∃ k, k < classes.length ∧
    classes.getD k 0 = y.getD j 0 ∧
    ∀ i, i < classes.length →
      (p.getD j []).getD i 0 = if i = k then 1 else 0

/-! ## Classification report
(sklearn.metrics.classification_report, called on metrics.py line 45) -/

/-- One row of the classification report. -/
structure ClassStats where
  precision : ℚ
  recl : ℚ
  f1 : ℚ
  support : ℚ
deriving DecidableEq

/-- The report dict produced with output_dict=True, restricted to the parts
the claims mention: the per-class rows, the overall accuracy, and the
macro-average row.  (The weighted-average row is not modelled.) -/
structure Report where
  perClass : List (Label × ClassStats)
  accuracy : ℚ
  macroAvg : ClassStats
deriving DecidableEq

/-- The labels sklearn reports on when no labels argument is supplied — as
on metrics.py line 45: the sorted union of the labels observed in y_true
and in the predictions, NOT the caller's class list. -/
def observedLabels (y preds : List Label) : List Label :=
  ((y ++ preds).dedup).mergeSort (fun a b => decide (a ≤ b))

/-- True positives of class c: samples with true label c predicted as c. -/
def countTP (y preds : List Label) (c : Label) : ℕ :=
  ((y.zip preds).filter (fun tp => decide (tp.1 = c) && decide (tp.2 = c))).length

/-- Number of samples predicted as class c (TP + FP). -/
def countPred (preds : List Label) (c : Label) : ℕ :=
  (preds.filter (fun t => decide (t = c))).length

/-- Number of samples whose true label is c (TP + FN = support). -/
def countTrue (y : List Label) (c : Label) : ℕ :=
  (y.filter (fun t => decide (t = c))).length

/-- Per-class report row: precision TP/(TP+FP), recall TP/(TP+FN),
F1 = 2PR/(P+R), support = true count; a ratio whose denominator is zero is
reported as 0 (sklearn's zero_division handling — no division fault). -/
def classStats (y preds : List Label) (c : Label) : ClassStats :=
  let tp := countTP y preds c
  let pp := countPred preds c
  let tt := countTrue y c
  let prec : ℚ := if pp = 0 then 0 else (tp : ℚ) / pp
  let rcl : ℚ := if tt = 0 then 0 else (tp : ℚ) / tt
  let f1 : ℚ := if prec + rcl = 0 then 0 else 2 * prec * rcl / (prec + rcl)
  ⟨prec, rcl, f1, (tt : ℚ)⟩

/-- sklearn.metrics.classification_report(y_true, preds, output_dict=True):
a row for each observed label, the overall accuracy, and the macro average
(unweighted means of the per-class precision/recall/F1; its support slot
holds the total sample count). -/
def classification_report (y preds : List Label) : Report :=
  let labels := observedLabels y preds
  { perClass := labels.map (fun c => (c, classStats y preds c))
  , accuracy :=
      (((y.zip preds).filter (fun tp => decide (tp.1 = tp.2))).length : ℚ) /
        (y.length : ℚ)
  , macroAvg :=
      { precision := npMean (labels.map (fun c => (classStats y preds c).precision))
      , recl := npMean (labels.map (fun c => (classStats y preds c).recl))
      , f1 := npMean (labels.map (fun c => (classStats y preds c).f1))
      , support := (y.length : ℚ) } }

/-- sklearn.metrics.confusion_matrix(y_true, preds, labels=classes)
(metrics.py line 46): K×K counts, entry (i, j) = number of samples with
true class i and predicted class j, in the order of the class list. -/
def confusion_matrix (y preds classes : List Label) : List (List ℕ) :=
  classes.map (fun ci => classes.map (fun cj =>
    ((y.zip preds).filter
      (fun tp => decide (tp.1 = ci) && decide (tp.2 = cj))).length))

/-! ## The evaluate entry point (metrics.py lines 43–49) -/

/-- The record returned by `evaluate` (the EvalResult dataclass,
metrics.py lines 9–14). -/
structure EvalResult where
  report : Report
  confusion : List (List ℕ)
  ece : ℚ
  brier : ℚ
deriving DecidableEq

/-- metrics.py line 44: `preds = np.array(classes)[probas.argmax(axis=1)]`;
the fancy indexing raises IndexError when some row's argmax index is out
of the class list's range. -/
def predsOf (p : List (List ℚ)) (classes : List Label) :
    Except EvalErr (List Label) :=
  p.mapM (fun row =>
    match classes[npArgmax row]? with
    | some c => Except.ok c
    | none => Except.error EvalErr.indexError)

/-- metrics.py lines 43–49 (`evaluate`): compute the predictions (line 44),
the classification report (line 45 — sklearn's check_consistent_length
raises ValueError there when the label count differs from the prediction
count), the confusion matrix (line 46), the multiclass Brier score
(line 47 — which raises IndexError when the matrix has fewer columns than
the class list) and the ECE (line 48), and pack them into the result.
The function performs no shape validation of its own; the only failures
are the library exceptions just listed. -/
def evaluate (y : List Label) (p : List (List ℚ)) (classes : List Label) :
    Except EvalErr EvalResult :=
  match predsOf p classes with
  | Except.error e => Except.error e
  | Except.ok preds =>
    if y.length ≠ preds.length then Except.error EvalErr.valueError
    else
      match multiclass_brier y p classes with
      | Except.error e => Except.error e
      | Except.ok brier =>
        Except.ok
          { report := classification_report y preds
          , confusion := confusion_matrix y preds classes
          , ece := expected_calibration_error y p classes 15
          , brier := brier }

/-! ## Bootstrap confidence interval (run_cv.py lines 16–24) -/

/-- Deterministic stand-in for the PCG64 bit stream underlying
`np.random.default_rng(seed)`: a pure function of the seed alone.  The
theorems proved about `bootstrap_ci` hold for every such stream, so none
of them depends on the mixing constants chosen here. -/
def pcgStream (seed k : ℕ) : ℕ :=
  (6364136223846793005 * (seed + k) + 1442695040888963407) %
    18446744073709551616

/-- One resample mean (run_cv.py lines 20–21): draw `len(values)` indices
with replacement from the seeded stream and average the chosen values. -/
def resampleMean (values : List ℚ) (seed b : ℕ) : ℚ :=
  npMean ((List.range values.length).map
    (fun j => values.getD
      (pcgStream seed (b * values.length + j) % values.length) 0))

/-- np.percentile(xs, q) with the default linear interpolation: with the
values sorted ascending and h = (len−1)·q/100, the result is
s(i) + (h−i)·(s(i+1) − s(i)) for i = ⌊h⌋, clamping at the last element. -/
def npPercentile (xs : List ℚ) (q : ℚ) : ℚ :=
  let s := xs.mergeSort (fun a b => decide (a ≤ b))
  let h : ℚ := ((xs.length : ℚ) - 1) * q / 100
  let i : ℕ := (⌊h⌋).toNat
  if i + 1 < xs.length then
    s.getD i 0 + (h - (i : ℚ)) * (s.getD (i + 1) 0 - s.getD i 0)
  else s.getD (xs.length - 1) 0

/-- run_cv.py lines 16–24 (`bootstrap_ci`).  The extra `ambient` argument
models the process's ambient entropy (global NumPy random state, OS
entropy, …): it is in scope for the function but never consulted, because
the code builds its own generator from `np.random.default_rng(seed)`.
The `none` result models the exceptions on inputs NumPy rejects:
`rng.choice` raises ValueError on an empty population, and `np.percentile`
raises when asked for a percentile of the empty list of resample means
(n_boot = 0) or when a requested percentile `100·α/2` or `100·(1−α/2)`
falls outside [0, 100] (i.e. unless 0 ≤ α ≤ 2). -/
def bootstrap_ci (ambient : ℕ → ℕ) (values : List ℚ) (n_boot : ℕ := 1000)
    (alpha : ℚ := 1/20) (seed : ℕ := 42) : Option (ℚ × ℚ) :=
  if values = [] ∨ n_boot = 0 ∨ alpha < 0 ∨ 2 < alpha then none
  else
    let boots := (List.range n_boot).map (resampleMean values seed)
    some (npPercentile boots (100 * (alpha / 2)),
          npPercentile boots (100 * (1 - alpha / 2)))

/-! ## Stratified k-fold validation (run_cv.py lines 47 and 51) -/

/-- Observable outcome of constructing StratifiedKFold(n_splits) and
calling split(X, y). -/
inductive SplitOutcome where
  | valueError : SplitOutcome
  | proceeds (warned : Bool) : SplitOutcome
deriving DecidableEq

/-- Validation performed by sklearn's StratifiedKFold as used on run_cv.py
lines 47 and 51: the constructor rejects n_splits < 2 with ValueError, and
_make_test_folds raises ValueError only when n_splits exceeds the member
count of EVERY class; when merely some class is smaller than n_splits it
emits a UserWarning and still builds the k folds (so that class is then
missing from most test folds). -/
def stratifiedKFoldCheck (labels : List Label) (n_splits : ℕ) : SplitOutcome :=
  if n_splits < 2 then SplitOutcome.valueError
  else if labels.dedup.all (fun c => decide (labels.count c < n_splits)) then
    SplitOutcome.valueError
  else SplitOutcome.proceeds
    (labels.dedup.any (fun c => decide (labels.count c < n_splits)))

/-- False positives of class c: samples predicted c whose true label is
not c. -/
def countFP (y preds : List Label) (c : Label) : ℕ :=
  ((y.zip preds).filter
    (fun tp => decide (tp.1 ≠ c) && decide (tp.2 = c))).length

/-- False negatives of class c: samples with true label c predicted as
something else. -/
def countFN (y preds : List Label) (c : Label) : ℕ :=
  ((y.zip preds).filter
    (fun tp => decide (tp.1 = c) && decide (tp.2 ≠ c))).length

/-! ### Lemmas about `npMax`, `npArgmax`, `npMean` -/

theorem le_foldl_max (xs : List ℚ) (a : ℚ) : a ≤ xs.foldl max a := by
  induction xs generalizing a with
  | nil => exact le_refl a
  | cons b t ih => exact le_trans (le_max_left a b) (ih (max a b))

theorem mem_le_foldl_max (xs : List ℚ) (a : ℚ) {b : ℚ} (hb : b ∈ xs) :
    b ≤ xs.foldl max a := by
  induction xs generalizing a with
  | nil => cases hb
  | cons c t ih =>
    rcases List.mem_cons.mp hb with h | h
    · subst h; exact le_trans (le_max_right a b) (le_foldl_max t (max a b))
    · exact ih (max a c) h

theorem foldl_max_mem (xs : List ℚ) (a : ℚ) :
    xs.foldl max a = a ∨ xs.foldl max a ∈ xs := by
  induction xs generalizing a with
  | nil => exact Or.inl rfl
  | cons b t ih =>
    rcases ih (max a b) with h | h
    · rcases max_cases a b with ⟨he, _⟩ | ⟨he, _⟩
      · exact Or.inl (by rw [List.foldl_cons, h, he])
      · exact Or.inr (by rw [List.foldl_cons, h, he]; exact List.mem_cons_self b t)
    · exact Or.inr (List.mem_cons_of_mem b h)

theorem le_npMax {xs : List ℚ} {b : ℚ} (hb : b ∈ xs) : b ≤ npMax xs := by
  cases xs with
  | nil => cases hb
  | cons x t =>
    rcases List.mem_cons.mp hb with h | h
    · subst h; exact le_foldl_max t b
    · exact mem_le_foldl_max t x h

theorem npMax_mem {xs : List ℚ} (h : xs ≠ []) : npMax xs ∈ xs := by
  cases xs with
  | nil => exact absurd rfl h
  | cons x t =>
    rcases foldl_max_mem t x with he | he
    · rw [npMax, he]; exact List.mem_cons_self x t
    · exact List.mem_cons_of_mem x he

theorem foldl_max_comm (u : List ℚ) (a b : ℚ) :
    u.foldl max (max a b) = max a (u.foldl max b) := by
  induction u generalizing b with
  | nil => rfl
  | cons c t ih => rw [List.foldl_cons, List.foldl_cons, max_assoc, ih]

theorem npMax_cons (x : ℚ) {t : List ℚ} (ht : t ≠ []) :
    npMax (x :: t) = max x (npMax t) := by
  cases t with
  | nil => exact absurd rfl ht
  | cons y u => rw [npMax, npMax, List.foldl_cons, foldl_max_comm]

theorem npArgmax_lt_length {xs : List ℚ} (h : xs ≠ []) :
    npArgmax xs < xs.length := by
  induction xs with
  | nil => exact absurd rfl h
  | cons x t ih =>
    cases t with
    | nil => simp [npArgmax]
    | cons y u =>
      rw [npArgmax]
      by_cases hlt : x < npMax (y :: u)
      · rw [if_pos hlt]
        have := ih (by simp)
        simpa [Nat.succ_lt_succ_iff] using this
      · rw [if_neg hlt]; simp

theorem getD_npArgmax {xs : List ℚ} (h : xs ≠ []) :
    xs.getD (npArgmax xs) 0 = npMax xs := by
  induction xs with
  | nil => exact absurd rfl h
  | cons x t ih =>
    cases t with
    | nil => simp [npArgmax, npMax]
    | cons y u =>
      rw [npArgmax]
      by_cases hlt : x < npMax (y :: u)
      · rw [if_pos hlt]
        have hmax : npMax (x :: y :: u) = npMax (y :: u) := by
          rw [npMax_cons x (by simp), max_eq_right (le_of_lt hlt)]
        rw [hmax, List.getD_cons_succ]
        exact ih (by simp)
      · rw [if_neg hlt]
        have hmax : npMax (x :: y :: u) = x := by
          rw [npMax_cons x (by simp), max_eq_left (not_lt.mp hlt)]
        rw [hmax]; rfl

theorem lt_of_lt_npArgmax {xs : List ℚ} {j : ℕ} (hj : j < npArgmax xs) :
    xs.getD j 0 < npMax xs := by
  induction xs generalizing j with
  | nil => simp [npArgmax] at hj
  | cons x t ih =>
    cases t with
    | nil => simp [npArgmax] at hj
    | cons y u =>
      rw [npArgmax] at hj
      by_cases hlt : x < npMax (y :: u)
      · rw [if_pos hlt] at hj
        have hmax : npMax (x :: y :: u) = npMax (y :: u) := by
          rw [npMax_cons x (by simp), max_eq_right (le_of_lt hlt)]
        cases j with
        | zero => rw [hmax]; exact hlt
        | succ k =>
          rw [hmax, List.getD_cons_succ]
          exact ih (Nat.lt_of_succ_lt_succ hj)
      · rw [if_neg hlt] at hj; cases hj

theorem npMean_nonneg {xs : List ℚ} (h : ∀ x ∈ xs, 0 ≤ x) : 0 ≤ npMean xs := by
  have hs : 0 ≤ xs.sum := List.sum_nonneg h
  have : (0:ℚ) ≤ (xs.length : ℚ) := by positivity
  exact div_nonneg hs this

theorem npMean_le {xs : List ℚ} {b : ℚ} (hne : xs ≠ [])
    (h : ∀ x ∈ xs, x ≤ b) : npMean xs ≤ b := by
  have hlen : 0 < (xs.length : ℚ) := by
    have : 0 < xs.length := List.length_pos.mpr hne
    exact_mod_cast this
  have hs : xs.sum ≤ (xs.length : ℚ) * b := by
    have := List.sum_le_card_nsmul xs b h
    simpa [nsmul_eq_mul] using this
  rw [npMean, div_le_iff hlen]
  linarith

theorem npMean_ge {xs : List ℚ} {a : ℚ} (hne : xs ≠ [])
    (h : ∀ x ∈ xs, a ≤ x) : a ≤ npMean xs := by
  have hlen : 0 < (xs.length : ℚ) := by
    have : 0 < xs.length := List.length_pos.mpr hne
    exact_mod_cast this
  have hs : (xs.length : ℚ) * a ≤ xs.sum := by
    have := List.card_nsmul_le_sum xs a h
    simpa [nsmul_eq_mul] using this
  rw [npMean, le_div_iff hlen]
  linarith

theorem npMean_const {xs : List ℚ} {c : ℚ} (hne : xs ≠ [])
    (h : ∀ x ∈ xs, x = c) : npMean xs = c := by
  have hsum : xs.sum = (xs.length : ℚ) * c := by
    induction xs with
    | nil => simp
    | cons x t ih =>
      rcases eq_or_ne t [] with ht | ht
      · subst ht; simp [h x (List.mem_cons_self x [])]
      · rw [List.sum_cons, ih ht (fun z hz => h z (List.mem_cons_of_mem x hz)),
          h x (List.mem_cons_self x t)]
        push_cast [List.length_cons]
        ring
  have hlen : (xs.length : ℚ) ≠ 0 := by
    have : 0 < xs.length := List.length_pos.mpr hne
    exact_mod_cast Nat.pos_iff_ne_zero.mp this
  rw [npMean, hsum, mul_div_cancel_left₀ c hlen]

theorem sum_eq_zero_iff_of_nonneg {xs : List ℚ} (h : ∀ x ∈ xs, 0 ≤ x) :
    xs.sum = 0 ↔ ∀ x ∈ xs, x = 0 := by
  induction xs with
  | nil => simp
  | cons x t ih =>
    have hx : 0 ≤ x := h x (List.mem_cons_self x t)
    have ht : ∀ z ∈ t, 0 ≤ z := fun z hz => h z (List.mem_cons_of_mem x hz)
    have hts : 0 ≤ t.sum := List.sum_nonneg ht
    constructor
    · intro hz
      rw [List.sum_cons] at hz
      have hx0 : x = 0 := by linarith [hts]
      have ht0 : t.sum = 0 := by linarith
      intro z hz'
      rcases List.mem_cons.mp hz' with h' | h'
      · exact h' ▸ hx0
      · exact (ih ht).mp ht0 z h'
    · intro hall
      rw [List.sum_cons, hall x (List.mem_cons_self x t),
        (ih ht).mpr (fun z hz => hall z (List.mem_cons_of_mem x hz)), add_zero]

theorem npMean_eq_zero_iff {xs : List ℚ} (hne : xs ≠ [])
    (h : ∀ x ∈ xs, 0 ≤ x) : npMean xs = 0 ↔ ∀ x ∈ xs, x = 0 := by
  have hlen : (0:ℚ) < (xs.length : ℚ) := by
    have : 0 < xs.length := List.length_pos.mpr hne
    exact_mod_cast this
  rw [npMean, div_eq_zero_iff]
  constructor
  · rintro (hs | hs)
    · exact (sum_eq_zero_iff_of_nonneg h).mp hs
    · exact absurd hs (by positivity)
  · intro hall
    exact Or.inl ((sum_eq_zero_iff_of_nonneg h).mpr hall)

/-! ### Lemmas about the binning -/

theorem binBounds_getD {bins i : ℕ} (h : i < bins + 1) :
    (binBounds bins).getD i 0 = (i : ℚ) / bins := by
  have hlen : i < (binBounds bins).length := by
    rw [binBounds, List.length_map, List.length_range]; exact h
  rw [List.getD_eq_getElem _ _ hlen]
  simp only [binBounds, List.getElem_map, List.getElem_range]

theorem binBounds_nonneg (bins i : ℕ) : 0 ≤ (binBounds bins).getD i 0 := by
  by_cases h : i < bins + 1
  · rw [binBounds_getD h]; positivity
  · rw [List.getD_eq_default _ _
      (by rw [binBounds, List.length_map, List.length_range]; omega)]

theorem binPairs_subset {y : List Label} {p : List (List ℚ)}
    {classes : List Label} {bins i : ℕ} {cb : ℚ × Bool}
    (h : cb ∈ binPairs y p classes bins i) :
    cb ∈ (confidences p).zip (corrects y p classes) :=
  (List.mem_filter.mp h).1

theorem binPairs_bounds {y : List Label} {p : List (List ℚ)}
    {classes : List Label} {bins i : ℕ} {cb : ℚ × Bool}
    (h : cb ∈ binPairs y p classes bins i) :
    (binBounds bins).getD i 0 < cb.1 ∧
      cb.1 ≤ (binBounds bins).getD (i + 1) 0 := by
  have := (List.mem_filter.mp h).2
  simp only [Bool.and_eq_true, decide_eq_true_eq] at this
  exact this

/-- A sample whose confidence is exactly 0 satisfies no bin mask: every
lower bin boundary is ≥ 0 and the mask needs `lo < confidence`. -/
theorem zero_confidence_in_no_bin (y : List Label) (p : List (List ℚ))
    (classes : List Label) (bins i : ℕ) (cb : ℚ × Bool) (hc : cb.1 = 0) :
    cb ∉ binPairs y p classes bins i := by
  intro hmem
  have hb := (binPairs_bounds hmem).1
  rw [hc] at hb
  exact absurd hb (not_lt.mpr (binBounds_nonneg bins i))

/-! ### Counting helpers: sums of indicator values and of filter lengths -/

theorem sum_map_add_nat (l : List ℕ) (f g : ℕ → ℕ) :
    (l.map (fun i => f i + g i)).sum = (l.map f).sum + (l.map g).sum := by
  induction l with
  | nil => rfl
  | cons x t ih => simp [ih]; omega

theorem sum_indicator_eq_zero {P : ℕ → Bool} {n : ℕ}
    (h : ∀ i, i < n → P i = false) :
    ((List.range n).map (fun i => if P i then 1 else 0)).sum = 0 := by
  induction n with
  | zero => rfl
  | succ m ih =>
    rw [List.range_succ, List.map_append, List.sum_append]
    rw [ih (fun i hi => h i (Nat.lt_succ_of_lt hi))]
    simp [h m (Nat.lt_succ_self m)]

theorem sum_indicator_le_one {P : ℕ → Bool} (n : ℕ)
    (h : ∀ i, i < n → ∀ j, j < n → P i = true → P j = true → i = j) :
    ((List.range n).map (fun i => if P i then 1 else 0)).sum ≤ 1 := by
  induction n with
  | zero => simp
  | succ m ih =>
    rw [List.range_succ, List.map_append, List.sum_append]
    by_cases hm : P m = true
    · have hz : ∀ i, i < m → P i = false := by
        intro i hi
        by_contra hne
        have : P i = true := by
          cases hP : P i
          · exact absurd hP hne
          · rfl
        have := h i (Nat.lt_succ_of_lt hi) m (Nat.lt_succ_self m) this hm
        omega
      rw [sum_indicator_eq_zero hz]
      simp [hm]
    · have := ih (fun i hi j hj => h i (Nat.lt_succ_of_lt hi) j (Nat.lt_succ_of_lt hj))
      simp only [List.map_cons, List.map_nil, List.sum_cons, List.sum_nil]
      rw [if_neg hm]
      omega

theorem sum_indicator_eq_one {P : ℕ → Bool} {n i₀ : ℕ} (hi₀ : i₀ < n)
    (hp : P i₀ = true) (huniq : ∀ j, j < n → P j = true → j = i₀) :
    ((List.range n).map (fun i => if P i then 1 else 0)).sum = 1 := by
  induction n with
  | zero => omega
  | succ m ih =>
    rw [List.range_succ, List.map_append, List.sum_append]
    rcases Nat.lt_succ_iff_lt_or_eq.mp hi₀ with hlt | heq
    · have hm : P m = false := by
        cases hP : P m
        · rfl
        · have := huniq m (Nat.lt_succ_self m) hP
          omega
      rw [ih hlt (fun j hj hPj => huniq j (Nat.lt_succ_of_lt hj) hPj)]
      simp [hm]
    · subst heq
      have hz : ∀ i, i < i₀ → P i = false := by
        intro i hi
        cases hP : P i
        · rfl
        · have := huniq i (Nat.lt_succ_of_lt hi) hP
          omega
      rw [sum_indicator_eq_zero hz]
      simp [hp]

theorem sum_length_filter_le {α : Type} (l : List α) (ps : ℕ → α → Bool)
    (n : ℕ)
    (h : ∀ x ∈ l, ∀ i, i < n → ∀ j, j < n →
      ps i x = true → ps j x = true → i = j) :
    ((List.range n).map (fun i => (l.filter (ps i)).length)).sum ≤ l.length := by
  induction l with
  | nil => simp
  | cons x t ih =>
    have hsplit : ∀ i, ((x :: t).filter (ps i)).length =
        (if ps i x then 1 else 0) + (t.filter (ps i)).length := by
      intro i
      rw [List.filter_cons]
      by_cases hx : ps i x = true
      · simp [hx]; omega
      · simp [hx]
    calc ((List.range n).map (fun i => ((x :: t).filter (ps i)).length)).sum
        = ((List.range n).map
            (fun i => (if ps i x then 1 else 0) + (t.filter (ps i)).length)).sum := by
            congr 1
            exact List.map_congr_left (fun i _ => hsplit i)
      _ = ((List.range n).map (fun i => if ps i x then 1 else 0)).sum +
            ((List.range n).map (fun i => (t.filter (ps i)).length)).sum :=
            sum_map_add_nat _ _ _
      _ ≤ 1 + t.length := by
            have h1 := sum_indicator_le_one n
              (fun i hi j hj => h x (List.mem_cons_self x t) i hi j hj)
            have h2 := ih (fun z hz => h z (List.mem_cons_of_mem x hz))
            omega
      _ = (x :: t).length := by simp [List.length_cons]; omega

theorem sum_length_filter_eq {α : Type} (l : List α) (ps : ℕ → α → Bool)
    (n : ℕ)
    (h : ∀ x ∈ l, ∃ i₀, i₀ < n ∧ ps i₀ x = true ∧
      ∀ j, j < n → ps j x = true → j = i₀) :
    ((List.range n).map (fun i => (l.filter (ps i)).length)).sum = l.length := by
  induction l with
  | nil => simp
  | cons x t ih =>
    have hsplit : ∀ i, ((x :: t).filter (ps i)).length =
        (if ps i x then 1 else 0) + (t.filter (ps i)).length := by
      intro i
      rw [List.filter_cons]
      by_cases hx : ps i x = true
      · simp [hx]; omega
      · simp [hx]
    obtain ⟨i₀, hi₀, hp, huniq⟩ := h x (List.mem_cons_self x t)
    calc ((List.range n).map (fun i => ((x :: t).filter (ps i)).length)).sum
        = ((List.range n).map
            (fun i => (if ps i x then 1 else 0) + (t.filter (ps i)).length)).sum := by
            congr 1
            exact List.map_congr_left (fun i _ => hsplit i)
      _ = ((List.range n).map (fun i => if ps i x then 1 else 0)).sum +
            ((List.range n).map (fun i => (t.filter (ps i)).length)).sum :=
            sum_map_add_nat _ _ _
      _ = 1 + t.length := by
            rw [sum_indicator_eq_one hi₀ hp huniq,
              ih (fun z hz => h z (List.mem_cons_of_mem x hz))]
      _ = (x :: t).length := by simp [List.length_cons]; omega

/-! ### Range of the per-bin contributions and of the ECE -/

theorem binTerm_nonneg (y : List Label) (p : List (List ℚ))
    (classes : List Label) (bins i : ℕ) : 0 ≤ binTerm y p classes bins i := by
  rw [binTerm]
  by_cases h : binPairs y p classes bins i = []
  · simp [h]
  · simp only [h, if_neg]
    positivity

theorem binTerm_le (y : List Label) (p : List (List ℚ))
    (classes : List Label) {bins i : ℕ} (hi : i < bins) :
    binTerm y p classes bins i ≤
      ((binPairs y p classes bins i).length : ℚ) / (confidences p).length := by
  rw [binTerm]
  by_cases h : binPairs y p classes bins i = []
  · simp only [h, if_pos]
    positivity
  · simp only [h, if_neg]
    have hbins : (0:ℚ) < (bins : ℚ) := by
      have : 0 < bins := Nat.pos_of_ne_zero (by omega)
      exact_mod_cast this
    have hmapne : (binPairs y p classes bins i).map
        (fun cb : ℚ × Bool => if cb.2 then (1:ℚ) else 0) ≠ [] := by
      simpa [List.map_eq_nil_iff] using h
    have hmapne' : (binPairs y p classes bins i).map Prod.fst ≠ [] := by
      simpa [List.map_eq_nil_iff] using h
    have hacc0 : 0 ≤ npMean ((binPairs y p classes bins i).map
        (fun cb : ℚ × Bool => if cb.2 then (1:ℚ) else 0)) := by
      apply npMean_nonneg
      intro x hx
      obtain ⟨cb, _, rfl⟩ := List.mem_map.mp hx
      by_cases hb : cb.2 <;> simp [hb]
    have hacc1 : npMean ((binPairs y p classes bins i).map
        (fun cb : ℚ × Bool => if cb.2 then (1:ℚ) else 0)) ≤ 1 := by
      apply npMean_le hmapne
      intro x hx
      obtain ⟨cb, _, rfl⟩ := List.mem_map.mp hx
      by_cases hb : cb.2 <;> simp [hb]
    have hconf0 : 0 ≤ npMean ((binPairs y p classes bins i).map Prod.fst) := by
      apply npMean_nonneg
      intro x hx
      obtain ⟨cb, hcb, rfl⟩ := List.mem_map.mp hx
      exact le_of_lt (lt_of_le_of_lt (binBounds_nonneg bins i)
        (binPairs_bounds hcb).1)
    have hconf1 : npMean ((binPairs y p classes bins i).map Prod.fst) ≤ 1 := by
      apply npMean_le hmapne'
      intro x hx
      obtain ⟨cb, hcb, rfl⟩ := List.mem_map.mp hx
      have hup := (binPairs_bounds hcb).2
      have hb1 : (binBounds bins).getD (i + 1) 0 ≤ 1 := by
        rw [binBounds_getD (by omega)]
        rw [div_le_one hbins]
        exact_mod_cast hi
      exact le_trans hup hb1
    have habs : |npMean ((binPairs y p classes bins i).map
          (fun cb : ℚ × Bool => if cb.2 then (1:ℚ) else 0)) -
        npMean ((binPairs y p classes bins i).map Prod.fst)| ≤ 1 := by
      rw [abs_le]
      constructor <;> linarith
    have hw : (0:ℚ) ≤
        ((binPairs y p classes bins i).length : ℚ) / (confidences p).length := by
      positivity
    calc ((binPairs y p classes bins i).length : ℚ) / (confidences p).length *
          |npMean ((binPairs y p classes bins i).map
            (fun cb : ℚ × Bool => if cb.2 then (1:ℚ) else 0)) -
          npMean ((binPairs y p classes bins i).map Prod.fst)|
        ≤ ((binPairs y p classes bins i).length : ℚ) /
            (confidences p).length * 1 := mul_le_mul_of_nonneg_left habs hw
      _ = ((binPairs y p classes bins i).length : ℚ) /
            (confidences p).length := mul_one _

theorem bin_index_unique {bins i j : ℕ} {c : ℚ} (hi : i < bins) (hj : j < bins)
    (h1 : (i : ℚ) / bins < c) (h2 : c ≤ ((i : ℚ) + 1) / bins)
    (h3 : (j : ℚ) / bins < c) (h4 : c ≤ ((j : ℚ) + 1) / bins) : i = j := by
  have hbins : (0:ℚ) < (bins : ℚ) := by
    have : 0 < bins := Nat.pos_of_ne_zero (by omega)
    exact_mod_cast this
  have hij : (j : ℚ) / bins < ((i : ℚ) + 1) / bins := lt_of_lt_of_le h3 h2
  have hji : (i : ℚ) / bins < ((j : ℚ) + 1) / bins := lt_of_lt_of_le h1 h4
  have h5 : (j : ℚ) < (i : ℚ) + 1 := (div_lt_div_iff_of_pos_right hbins).mp hij
  have h6 : (i : ℚ) < (j : ℚ) + 1 := (div_lt_div_iff_of_pos_right hbins).mp hji
  have h7 : j < i + 1 := by exact_mod_cast h5
  have h8 : i < j + 1 := by exact_mod_cast h6
  omega

theorem sum_map_div (l : List ℕ) (f : ℕ → ℚ) (d : ℚ) :
    (l.map (fun i => f i / d)).sum = (l.map f).sum / d := by
  induction l with
  | nil => simp
  | cons x t ih => simp [ih, add_div]

theorem ece_nonneg (y : List Label) (p : List (List ℚ)) (classes : List Label)
    (bins : ℕ) : 0 ≤ expected_calibration_error y p classes bins := by
  apply List.sum_nonneg
  intro x hx
  obtain ⟨i, _, rfl⟩ := List.mem_map.mp hx
  exact binTerm_nonneg y p classes bins i

theorem ece_le_one (y : List Label) (p : List (List ℚ)) (classes : List Label)
    (bins : ℕ) : expected_calibration_error y p classes bins ≤ 1 := by
  by_cases hL : (confidences p).zip (corrects y p classes) = []
  · have hall : ∀ i ∈ List.range bins, binTerm y p classes bins i = 0 := by
      intro i _
      rw [binTerm]
      have : binPairs y p classes bins i = [] := by
        rw [binPairs, hL, List.filter_nil]
      simp [this]
    rw [expected_calibration_error]
    rw [List.sum_eq_zero (fun x hx => by
      obtain ⟨i, hi, rfl⟩ := List.mem_map.mp hx; exact hall i hi)]
    norm_num
  · have hN : 0 < (confidences p).length := by
      have h1 : 0 < ((confidences p).zip (corrects y p classes)).length :=
        List.length_pos.mpr hL
      rw [List.length_zip] at h1
      omega
    have hNQ : (0:ℚ) < ((confidences p).length : ℚ) := by exact_mod_cast hN
    have hstep : expected_calibration_error y p classes bins ≤
        ((List.range bins).map (fun i =>
          ((binPairs y p classes bins i).length : ℚ) /
            (confidences p).length)).sum := by
      apply List.sum_le_sum
      intro i hi
      exact binTerm_le y p classes (List.mem_range.mp hi)
    have hcount : ((List.range bins).map
        (fun i => (binPairs y p classes bins i).length)).sum ≤
        ((confidences p).zip (corrects y p classes)).length := by
      apply sum_length_filter_le
      intro cb hcb i hi j hj hpi hpj
      simp only [Bool.and_eq_true, decide_eq_true_eq] at hpi hpj
      have hloi := @binBounds_getD bins i (by omega)
      have hhii := @binBounds_getD bins (i + 1) (by omega)
      have hloj := @binBounds_getD bins j (by omega)
      have hhij := @binBounds_getD bins (j + 1) (by omega)
      rw [hloi, hhii] at hpi
      rw [hloj, hhij] at hpj
      refine bin_index_unique hi hj hpi.1 ?_ hpj.1 ?_
      · have := hpi.2; push_cast at this ⊢; exact this
      · have := hpj.2; push_cast at this ⊢; exact this
    have hzlen : ((confidences p).zip (corrects y p classes)).length ≤
        (confidences p).length := by
      rw [List.length_zip]; omega
    calc expected_calibration_error y p classes bins
        ≤ ((List.range bins).map (fun i =>
            ((binPairs y p classes bins i).length : ℚ) /
              (confidences p).length)).sum := hstep
      _ = ((List.range bins).map (fun i =>
            ((binPairs y p classes bins i).length : ℚ))).sum /
              (confidences p).length := sum_map_div _ _ _
      _ ≤ 1 := by
          rw [div_le_one hNQ]
          have hc : ((List.range bins).map (fun i =>
              ((binPairs y p classes bins i).length : ℚ))).sum =
              ((((List.range bins).map
                (fun i => (binPairs y p classes bins i).length)).sum : ℕ) : ℚ) := by
            rw [Nat.cast_list_sum, List.map_map]
            rfl
          rw [hc]
          have : (((List.range bins).map
              (fun i => (binPairs y p classes bins i).length)).sum : ℕ) ≤
              (confidences p).length := le_trans hcount hzlen
          exact_mod_cast this

/-! ### Perfect, fully confident calibration -/

theorem zip_all_perfect {y : List Label} {p : List (List ℚ)}
    {classes : List Label}
    (hperf : ∀ j, j < p.length → npMax (p.getD j []) = 1 ∧
      classes.getD (npArgmax (p.getD j [])) 0 = y.getD j 0) :
    ∀ cb ∈ (confidences p).zip (corrects y p classes), cb = (1, true) := by
  intro cb hcb
  obtain ⟨k, hk, hcbk⟩ := List.mem_iff_getElem.mp hcb
  have hklen := hk
  rw [List.length_zip] at hklen
  have hkc : k < (confidences p).length := lt_of_lt_of_le hklen (min_le_left _ _)
  have hkr : k < (corrects y p classes).length :=
    lt_of_lt_of_le hklen (min_le_right _ _)
  have hkp : k < p.length := by
    rw [confidences, List.length_map] at hkc; exact hkc
  have hky : k < y.length := by
    rw [corrects, List.length_zipWith, predictions, List.length_map] at hkr
    omega
  obtain ⟨h1, h2⟩ := hperf k hkp
  rw [List.getD_eq_getElem _ _ hkp] at h1 h2
  rw [List.getD_eq_getElem _ _ hky] at h2
  rw [List.getElem_zip] at hcbk
  have hc : (confidences p)[k] = 1 := by
    simp only [confidences, List.getElem_map]; exact h1
  have hr : (corrects y p classes)[k] = true := by
    simp only [corrects, List.getElem_zipWith, predictions, List.getElem_map]
    exact beq_iff_eq.mpr h2
  rw [← hcbk, hc, hr]

theorem binTerm_eq_zero_of_perfect (y : List Label) (p : List (List ℚ))
    (classes : List Label) (bins i : ℕ)
    (hall : ∀ cb ∈ (confidences p).zip (corrects y p classes), cb = (1, true)) :
    binTerm y p classes bins i = 0 := by
  rw [binTerm]
  by_cases h : binPairs y p classes bins i = []
  · simp [h]
  · simp only [h, if_neg]
    have hsel : ∀ cb ∈ binPairs y p classes bins i, cb = ((1:ℚ), true) :=
      fun cb hcb => hall cb (binPairs_subset hcb)
    have hmapne : (binPairs y p classes bins i).map
        (fun cb : ℚ × Bool => if cb.2 then (1:ℚ) else 0) ≠ [] := by
      simpa [List.map_eq_nil_iff] using h
    have hmapne' : (binPairs y p classes bins i).map Prod.fst ≠ [] := by
      simpa [List.map_eq_nil_iff] using h
    have hacc : npMean ((binPairs y p classes bins i).map
        (fun cb : ℚ × Bool => if cb.2 then (1:ℚ) else 0)) = 1 := by
      apply npMean_const hmapne
      intro x hx
      obtain ⟨cb, hcb, rfl⟩ := List.mem_map.mp hx
      simp [hsel cb hcb]
    have hconf : npMean ((binPairs y p classes bins i).map Prod.fst) = 1 := by
      apply npMean_const hmapne'
      intro x hx
      obtain ⟨cb, hcb, rfl⟩ := List.mem_map.mp hx
      rw [hsel cb hcb]
    rw [hacc, hconf]
    simp

/-! ### Unique bin membership for confidences in the half-open unit interval -/

theorem exists_unique_bin {bins : ℕ} (hb : 1 ≤ bins) {c : ℚ} (h0 : 0 < c)
    (h1 : c ≤ 1) :
    ∃ i₀, i₀ < bins ∧ ((i₀ : ℚ) / bins < c ∧ c ≤ ((i₀ : ℚ) + 1) / bins) ∧
      ∀ j, j < bins → ((j : ℚ) / bins < c ∧ c ≤ ((j : ℚ) + 1) / bins) →
        j = i₀ := by
  have hbq : (0:ℚ) < (bins : ℚ) := by exact_mod_cast hb
  set t : ℚ := c * bins with ht
  have ht0 : 0 < t := by positivity
  have htb : t ≤ (bins : ℚ) := by
    rw [ht]
    calc c * (bins : ℚ) ≤ 1 * (bins : ℚ) :=
          mul_le_mul_of_nonneg_right h1 (le_of_lt hbq)
      _ = (bins : ℚ) := one_mul _
  have hm1 : 1 ≤ ⌈t⌉ := Int.ceil_pos.mpr ht0
  have hmb : ⌈t⌉ ≤ (bins : ℤ) := Int.ceil_le.mpr (by exact_mod_cast htb)
  refine ⟨(⌈t⌉ - 1).toNat, ?_, ⟨?_, ?_⟩, ?_⟩
  · omega
  · have hcast : (((⌈t⌉ - 1).toNat : ℚ)) = ((⌈t⌉ : ℚ) - 1) := by
      have : ((⌈t⌉ - 1).toNat : ℤ) = ⌈t⌉ - 1 := Int.toNat_of_nonneg (by omega)
      exact_mod_cast this
    rw [hcast, div_lt_iff hbq]
    have := Int.ceil_lt_add_one t
    linarith
  · have hcast : (((⌈t⌉ - 1).toNat : ℚ)) = ((⌈t⌉ : ℚ) - 1) := by
      have : ((⌈t⌉ - 1).toNat : ℤ) = ⌈t⌉ - 1 := Int.toNat_of_nonneg (by omega)
      exact_mod_cast this
    rw [hcast, le_div_iff hbq]
    have := Int.le_ceil t
    linarith
  · intro j hj ⟨hj1, hj2⟩
    have hcast : (((⌈t⌉ - 1).toNat : ℚ)) = ((⌈t⌉ : ℚ) - 1) := by
      have : ((⌈t⌉ - 1).toNat : ℤ) = ⌈t⌉ - 1 := Int.toNat_of_nonneg (by omega)
      exact_mod_cast this
    refine bin_index_unique hj (by omega) hj1 hj2 ?_ ?_
    · rw [hcast, div_lt_iff hbq]
      have := Int.ceil_lt_add_one t
      linarith
    · rw [hcast, le_div_iff hbq]
      have := Int.le_ceil t
      linarith

/-! ## Claim C2 -/

/-- C2: for every list of true labels and probability matrix whose rows sum
to 1, the expected calibration error (with the default 15 bins) lies in
[0, 1]; and whenever every row's argmax class equals the true label and the
row's maximum probability is exactly 1, the ECE equals 0. -/
theorem ece_range_and_perfect (y : List Label) (p : List (List ℚ))
    (classes : List Label)
    (hlen : y.length = p.length)
    (hsum : ∀ row ∈ p, row.sum = 1) :
    (0 ≤ expected_calibration_error y p classes 15 ∧
      expected_calibration_error y p classes 15 ≤ 1) ∧
    ((∀ j, j < p.length → npMax (p.getD j []) = 1 ∧
        classes.getD (npArgmax (p.getD j [])) 0 = y.getD j 0) →
      expected_calibration_error y p classes 15 = 0) := by
  refine ⟨⟨ece_nonneg y p classes 15, ece_le_one y p classes 15⟩, ?_⟩
  intro hperf
  rw [expected_calibration_error]
  apply List.sum_eq_zero
  intro x hx
  obtain ⟨i, _, rfl⟩ := List.mem_map.mp hx
  exact binTerm_eq_zero_of_perfect y p classes 15 i (zip_all_perfect hperf)

theorem ece_range_and_perfect_witness :
    0 ≤ expected_calibration_error [0, 1] [[1, 0], [0, 1]] [0, 1] 15 ∧
    expected_calibration_error [0, 1] [[1, 0], [0, 1]] [0, 1] 15 ≤ 1 ∧
    expected_calibration_error [0, 1] [[1, 0], [0, 1]] [0, 1] 15 = 0 := by
  have h := ece_range_and_perfect [0, 1] [[1, 0], [0, 1]] [0, 1]
    rfl (by norm_num)
  refine ⟨h.1.1, h.1.2, h.2 ?_⟩
  intro j hj
  simp only [List.length_cons, List.length_nil] at hj
  interval_cases j <;> constructor <;> norm_num [npMax, npArgmax]

/-! ## Claim C3 -/

/-- C3: the ECE mechanism partitions the unit interval into `bins`
equal-width half-open bins `(i/bins, (i+1)/bins]` on the per-sample
confidence; each empty bin contributes 0 to the sum, each non-empty bin
contributes `|mean correctness − mean confidence|` weighted by its
population over the total sample count; and a sample whose confidence is
exactly 0 satisfies no bin mask, so it is excluded from the weighted sum. -/
theorem ece_binning_characterization (y : List Label) (p : List (List ℚ))
    (classes : List Label) (bins : ℕ) :
    (∀ i, i < bins →
      (binBounds bins).getD (i + 1) 0 - (binBounds bins).getD i 0 = 1 / bins ∧
      binPairs y p classes bins i =
        ((confidences p).zip (corrects y p classes)).filter
          (fun cb => decide ((i : ℚ) / bins < cb.1) &&
                     decide (cb.1 ≤ ((i : ℚ) + 1) / bins))) ∧
    (expected_calibration_error y p classes bins =
      ((List.range bins).map (fun i =>
        if binPairs y p classes bins i = [] then 0
        else ((binPairs y p classes bins i).length : ℚ) /
            (confidences p).length *
          |npMean ((binPairs y p classes bins i).map
              (fun cb : ℚ × Bool => if cb.2 then (1:ℚ) else 0)) -
            npMean ((binPairs y p classes bins i).map Prod.fst)|)).sum) ∧
    (∀ cb : ℚ × Bool, cb.1 = 0 → ∀ i, cb ∉ binPairs y p classes bins i) := by
  refine ⟨?_, ?_, fun cb hc i => zero_confidence_in_no_bin y p classes bins i cb hc⟩
  · intro i hi
    have e1 : (binBounds bins).getD i 0 = (i : ℚ) / bins :=
      binBounds_getD (by omega)
    have e2 : (binBounds bins).getD (i + 1) 0 = ((i + 1 : ℕ) : ℚ) / bins :=
      binBounds_getD (by omega)
    constructor
    · rw [e1, e2, div_sub_div_same]
      push_cast
      ring_nf
    · rw [binPairs]
      simp only [e1, e2]
      congr 1
      funext cb
      congr 2
      push_cast
      ring_nf
  · rw [expected_calibration_error]
    apply congrArg
    apply List.map_congr_left
    intro i _
    simp only [binTerm]

theorem ece_binning_characterization_witness :
    (binBounds 2).getD 1 0 - (binBounds 2).getD 0 0 = 1 / 2 ∧
    ((0 : ℚ), true) ∉ binPairs [0] [[1/2, 1/2]] [0, 1] 2 0 := by
  have h := ece_binning_characterization [0] [[1/2, 1/2]] [0, 1] 2
  exact ⟨(h.1 0 (by omega)).1, h.2.2 (0, true) rfl 0⟩

/-! ## Claim C10 -/

/-- C10 (amended): under the stated precondition *and at least one sample*,
every sample's confidence is at least the reciprocal of its row width and
positive, every sample falls into exactly one of the half-open bins, and
the bin weights mask.mean() summed over all bins (empty bins contributing
weight 0) equal exactly 1. -/
theorem ece_bin_weights_sum_one (y : List Label) (p : List (List ℚ))
    (classes : List Label) (bins : ℕ) (hb : 1 ≤ bins)
    (hlen : y.length = p.length) (hne : p ≠ [])
    (hrows : ∀ row ∈ p, row ≠ [] ∧ (∀ q ∈ row, 0 ≤ q) ∧ row.sum = 1) :
    (∀ row ∈ p, 1 / (row.length : ℚ) ≤ npMax row ∧ 0 < npMax row) ∧
    (∀ cb ∈ (confidences p).zip (corrects y p classes),
      ∃ i₀, i₀ < bins ∧ cb ∈ binPairs y p classes bins i₀ ∧
        ∀ i, i < bins → cb ∈ binPairs y p classes bins i → i = i₀) ∧
    ((List.range bins).map (fun i =>
      ((binPairs y p classes bins i).length : ℚ) /
        (confidences p).length)).sum = 1 := by
  have hconf : ∀ row ∈ p, 1 / (row.length : ℚ) ≤ npMax row ∧ 0 < npMax row := by
    intro row hrow
    obtain ⟨hrne, hrnn, hrsum⟩ := hrows row hrow
    have hlen0 : (0:ℚ) < (row.length : ℚ) := by
      have : 0 < row.length := List.length_pos.mpr hrne
      exact_mod_cast this
    have hlow : 1 / (row.length : ℚ) ≤ npMax row := by
      rw [div_le_iff hlen0]
      have hs : row.sum ≤ (row.length : ℚ) * npMax row := by
        have := List.sum_le_card_nsmul row (npMax row) (fun x hx => le_npMax hx)
        simpa [nsmul_eq_mul] using this
      rw [hrsum] at hs
      linarith
    exact ⟨hlow, lt_of_lt_of_le (by positivity) hlow⟩
  have hconfmem : ∀ c ∈ confidences p, 0 < c ∧ c ≤ 1 := by
    intro c hc
    obtain ⟨row, hrow, rfl⟩ := List.mem_map.mp hc
    obtain ⟨hrne, hrnn, hrsum⟩ := hrows row hrow
    refine ⟨(hconf row hrow).2, ?_⟩
    have := List.single_le_sum hrnn _ (npMax_mem hrne)
    rwa [hrsum] at this
  have hbin : ∀ cb ∈ (confidences p).zip (corrects y p classes),
      ∃ i₀, i₀ < bins ∧ cb ∈ binPairs y p classes bins i₀ ∧
        ∀ i, i < bins → cb ∈ binPairs y p classes bins i → i = i₀ := by
    rintro ⟨c, b⟩ hcb
    have hcmem : c ∈ confidences p := (List.of_mem_zip hcb).1
    obtain ⟨hc0, hc1⟩ := hconfmem c hcmem
    obtain ⟨i₀, hi₀, ⟨hl, hr⟩, huniq⟩ := exists_unique_bin hb hc0 hc1
    refine ⟨i₀, hi₀, ?_, ?_⟩
    · apply List.mem_filter.mpr
      refine ⟨hcb, ?_⟩
      rw [binBounds_getD (by omega : i₀ < bins + 1),
        binBounds_getD (by omega : i₀ + 1 < bins + 1)]
      simp only [Bool.and_eq_true, decide_eq_true_eq]
      constructor
      · exact hl
      · push_cast
        exact hr
    · intro i hi hmem
      have hb' := binPairs_bounds hmem
      rw [binBounds_getD (by omega : i < bins + 1),
        binBounds_getD (by omega : i + 1 < bins + 1)] at hb'
      apply huniq i hi
      constructor
      · exact hb'.1
      · have := hb'.2
        push_cast at this
        exact this
  refine ⟨hconf, hbin, ?_⟩
  have hN : (confidences p).length = p.length := by
    rw [confidences, List.length_map]
  have hNpos : 0 < p.length := List.length_pos.mpr hne
  have hzlen : ((confidences p).zip (corrects y p classes)).length = p.length := by
    rw [List.length_zip, hN, corrects, List.length_zipWith, predictions,
      List.length_map, hlen]
    omega
  have hcnt : ((List.range bins).map
      (fun i => (binPairs y p classes bins i).length)).sum =
      ((confidences p).zip (corrects y p classes)).length := by
    apply sum_length_filter_eq
    intro cb hcb
    obtain ⟨i₀, hi₀, hmem, huniq⟩ := hbin cb hcb
    refine ⟨i₀, hi₀, (List.mem_filter.mp hmem).2, ?_⟩
    intro j hj hpj
    exact huniq j hj (List.mem_filter.mpr ⟨hcb, hpj⟩)
  have hNQ : (0:ℚ) < ((confidences p).length : ℚ) := by
    rw [hN]; exact_mod_cast hNpos
  rw [sum_map_div]
  rw [div_eq_one_iff_eq (ne_of_gt hNQ)]
  have hc : ((List.range bins).map (fun i =>
      ((binPairs y p classes bins i).length : ℚ))).sum =
      ((((List.range bins).map
        (fun i => (binPairs y p classes bins i).length)).sum : ℕ) : ℚ) := by
    rw [Nat.cast_list_sum, List.map_map]
    rfl
  rw [hc, hcnt, hzlen, hN]

theorem ece_bin_weights_sum_one_witness :
    ((List.range 15).map (fun i =>
      ((binPairs [0, 1] [[1, 0], [0, 1]] [0, 1] 15 i).length : ℚ) /
        (confidences [[(1:ℚ), 0], [0, 1]]).length)).sum = 1 := by
  have h := ece_bin_weights_sum_one [0, 1] [[1, 0], [0, 1]] [0, 1] 15
    (by omega) rfl (by simp)
    (by
      intro row hr
      fin_cases hr
      · exact ⟨by simp, by intro q hq; fin_cases hq <;> norm_num, by norm_num⟩
      · exact ⟨by simp, by intro q hq; fin_cases hq <;> norm_num, by norm_num⟩)
  exact h.2.2

/-- C10 fails as stated when there are no samples: every bin is then empty
and the bin weights sum to 0, not 1, even though the (vacuous) row
preconditions hold. -/
theorem ece_bin_weights_empty_input :
    ((List.range 15).map (fun i =>
      ((binPairs ([] : List Label) ([] : List (List ℚ)) [0] 15 i).length : ℚ) /
        (confidences ([] : List (List ℚ))).length)).sum ≠ 1 := by
  have hz : ∀ i : ℕ, binPairs ([] : List Label) ([] : List (List ℚ)) [0] 15 i = [] := by
    intro i
    rw [binPairs]
    simp [confidences, corrects, predictions]
  have : ((List.range 15).map (fun i =>
      ((binPairs ([] : List Label) ([] : List (List ℚ)) [0] 15 i).length : ℚ) /
        (confidences ([] : List (List ℚ))).length)).sum = 0 := by
    apply List.sum_eq_zero
    intro x hx
    obtain ⟨i, _, rfl⟩ := List.mem_map.mp hx
    rw [hz i]
    simp
  rw [this]
  norm_num

/-! ### Helper lemmas for the Brier refinement -/

theorem exceptMapM_ok {α β : Type} (l : List α) (f : α → Except EvalErr β)
    (g : α → β) (h : ∀ x ∈ l, f x = Except.ok (g x)) :
    l.mapM f = Except.ok (l.map g) := by
  induction l with
  | nil => rw [List.mapM_nil]; rfl
  | cons x t ih =>
    rw [List.mapM_cons, h x (List.mem_cons_self x t),
      ih (fun z hz => h z (List.mem_cons_of_mem x hz))]
    rfl

theorem optionMapM_ok {α β : Type} (l : List α) (f : α → Option β)
    (g : α → β) (h : ∀ x ∈ l, f x = some (g x)) :
    l.mapM f = some (l.map g) := by
  induction l with
  | nil => rw [List.mapM_nil]; rfl
  | cons x t ih =>
    rw [List.mapM_cons, h x (List.mem_cons_self x t),
      ih (fun z hz => h z (List.mem_cons_of_mem x hz))]
    rfl

theorem getCol_eq {p : List (List ℚ)} {i : ℕ}
    (hw : ∀ row ∈ p, i < row.length) : getCol p i = some (colD p i) := by
  rw [getCol, colD]
  apply optionMapM_ok
  intro row hrow
  rw [List.getElem?_eq_getElem (hw row hrow),
    List.getD_eq_getElem _ _ (hw row hrow)]

theorem getD_mem {α : Type} {l : List α} {i : ℕ} (d : α) (h : i < l.length) :
    l.getD i d ∈ l := by
  rw [List.getD_eq_getElem _ _ h]; exact List.getElem_mem h

theorem list_sum_eq_zero_of_getD {l : List ℚ}
    (h : ∀ k, k < l.length → l.getD k 0 = 0) : l.sum = 0 := by
  apply List.sum_eq_zero
  intro x hx
  obtain ⟨n, hn, rfl⟩ := List.mem_iff_getElem.mp hx
  have := h n hn
  rwa [List.getD_eq_getElem _ _ hn] at this

theorem zipWith_sq_bounds {y : List Label} {p : List (List ℚ)}
    {classes : List Label} {i : ℕ} {c : Label}
    (hrows : ∀ row ∈ p, row.length = classes.length ∧
      (∀ q ∈ row, 0 ≤ q) ∧ row.sum = 1)
    (hi : i < classes.length) :
    ∀ x ∈ List.zipWith (fun a b => (a - b) ^ 2)
      (y.map (fun t => if t = c then (1:ℚ) else 0)) (colD p i),
      0 ≤ x ∧ x ≤ 1 := by
  intro x hx
  obtain ⟨n, hn, rfl⟩ := List.mem_iff_getElem.mp hx
  rw [List.getElem_zipWith]
  have hn1 : n < (y.map (fun t => if t = c then (1:ℚ) else 0)).length := by
    have := hn; rw [List.length_zipWith] at this; omega
  have hn2 : n < (colD p i).length := by
    have := hn; rw [List.length_zipWith] at this; omega
  refine ⟨sq_nonneg _, ?_⟩
  rw [sq_le_one_iff_abs_le_one, abs_le]
  have hnp : n < p.length := by
    rw [colD, List.length_map] at hn2; exact hn2
  have hrow := hrows p[n] (List.getElem_mem hnp)
  have hb1 : (colD p i)[n] = (p[n]).getD i 0 := by
    simp only [colD, List.getElem_map]
  have hib : i < (p[n]).length := by rw [hrow.1]; exact hi
  have hbmem : (p[n]).getD i 0 ∈ p[n] := getD_mem 0 hib
  have hb0 : 0 ≤ (p[n]).getD i 0 := hrow.2.1 _ hbmem
  have hbs : (p[n]).getD i 0 ≤ 1 := by
    have := List.single_le_sum hrow.2.1 _ hbmem
    rwa [hrow.2.2] at this
  have hny : n < y.length := by
    rw [List.length_map] at hn1; exact hn1
  rw [hb1, List.getElem_map]
  by_cases hc : y[n] = c
  · rw [if_pos hc]
    constructor <;> linarith
  · rw [if_neg hc]
    constructor <;> linarith

/-! ## Claim C1 -/

/-- C1: under the preconditions (labels aligned with rows, at least one
row, distinct class names, every row as wide as the class list with
non-negative entries summing to 1) the code's `multiclass_brier` returns
exactly the specification's value — the mean over classes of the mean
squared error between the one-vs-rest indicator and the class's column —
and that value lies in [0, 1] and is 0 exactly when every row is a one-hot
vector whose 1 sits in the column of the true label. -/
theorem brier_spec_correct (y : List Label) (p : List (List ℚ))
    (classes : List Label)
    (hlen : y.length = p.length) (hne : p ≠ []) (hnodup : classes.Nodup)
    (hrows : ∀ row ∈ p, row.length = classes.length ∧
      (∀ q ∈ row, 0 ≤ q) ∧ row.sum = 1) :
    multiclass_brier y p classes =
      Except.ok (multiclassBrierSpec y p classes) ∧
    0 ≤ multiclassBrierSpec y p classes ∧
    multiclassBrierSpec y p classes ≤ 1 ∧
    (multiclassBrierSpec y p classes = 0 ↔ oneHotAtTruth y p classes) := by
  have hppos : 0 < p.length := List.length_pos.mpr hne
  have hK : 0 < classes.length := by
    obtain ⟨row, hrow⟩ : ∃ row, row ∈ p := by
      cases p with
      | nil => exact absurd rfl hne
      | cons r t => exact ⟨r, List.mem_cons_self r t⟩
    obtain ⟨hrl, _, hrsum⟩ := hrows row hrow
    rcases Nat.eq_zero_or_pos classes.length with h0 | h
    · exfalso
      have : row = [] := List.length_eq_zero.mp (by omega)
      rw [this] at hrsum
      simp at hrsum
    · exact h
  -- the zipWith list for any class index has length p.length
  have hzlen : ∀ i : ℕ, ∀ c : Label,
      (List.zipWith (fun a b => (a - b) ^ 2)
        (y.map (fun t => if t = c then (1:ℚ) else 0)) (colD p i)).length =
      p.length := by
    intro i c
    rw [List.length_zipWith, List.length_map, colD, List.length_map, hlen]
    omega
  have hzne : ∀ i : ℕ, ∀ c : Label,
      List.zipWith (fun a b => (a - b) ^ 2)
        (y.map (fun t => if t = c then (1:ℚ) else 0)) (colD p i) ≠ [] := by
    intro i c
    have := hzlen i c
    intro hcon
    rw [hcon] at this
    simp at this
    omega
  -- refinement: the Except computation succeeds with the spec value
  have hstep : ∀ ic ∈ classes.enum,
      (match getCol p ic.1 with
        | none => Except.error EvalErr.indexError
        | some col => brier_score_loss
            (y.map (fun t => if t = ic.2 then (1:ℚ) else 0)) col) =
      Except.ok (npMean (List.zipWith (fun a b => (a - b) ^ 2)
        (y.map (fun t => if t = ic.2 then (1:ℚ) else 0)) (colD p ic.1))) := by
    rintro ⟨i, c⟩ hic
    obtain ⟨hi, hc⟩ := List.mem_enum hic
    have hw : ∀ row ∈ p, i < row.length := by
      intro row hrow
      rw [(hrows row hrow).1]
      exact hi
    rw [getCol_eq hw]
    simp only []
    rw [brier_score_loss]
    rw [if_neg (by
      rw [List.length_map, colD, List.length_map]
      omega)]
    rw [if_neg (by
      intro hany
      obtain ⟨q, hq, hqp⟩ := List.any_eq_true.mp hany
      obtain ⟨row, hrow, rfl⟩ := List.mem_map.mp hq
      obtain ⟨hrl, hrnn, hrsum⟩ := hrows row hrow
      have hib : i < row.length := by rw [hrl]; exact hi
      have hbmem : row.getD i 0 ∈ row := getD_mem 0 hib
      have h0 : 0 ≤ row.getD i 0 := hrnn _ hbmem
      have h1 : row.getD i 0 ≤ 1 := by
        have := List.single_le_sum hrnn _ hbmem
        rwa [hrsum] at this
      simp only [Bool.or_eq_true, decide_eq_true_eq] at hqp
      rcases hqp with h | h <;> linarith)]
  have hok : multiclass_brier y p classes =
      Except.ok (multiclassBrierSpec y p classes) := by
    rw [multiclass_brier]
    rw [exceptMapM_ok _ _ _ hstep]
    rfl
  -- bounds on each per-class score
  have hscore : ∀ ic ∈ classes.enum,
      0 ≤ npMean (List.zipWith (fun a b => (a - b) ^ 2)
        (y.map (fun t => if t = ic.2 then (1:ℚ) else 0)) (colD p ic.1)) ∧
      npMean (List.zipWith (fun a b => (a - b) ^ 2)
        (y.map (fun t => if t = ic.2 then (1:ℚ) else 0)) (colD p ic.1)) ≤ 1 := by
    rintro ⟨i, c⟩ hic
    obtain ⟨hi, hc⟩ := List.mem_enum hic
    constructor
    · exact npMean_nonneg (fun x hx => (zipWith_sq_bounds hrows hi x hx).1)
    · exact npMean_le (hzne i c) (fun x hx => (zipWith_sq_bounds hrows hi x hx).2)
  have henne : classes.enum.map (fun ic =>
      npMean (List.zipWith (fun a b => (a - b) ^ 2)
        (y.map (fun t => if t = ic.2 then (1:ℚ) else 0)) (colD p ic.1))) ≠ [] := by
    intro hcon
    have := congrArg List.length hcon
    rw [List.length_map, List.enum_length, List.length_nil] at this
    omega
  have hb0 : 0 ≤ multiclassBrierSpec y p classes := by
    rw [multiclassBrierSpec]
    apply npMean_nonneg
    intro x hx
    obtain ⟨ic, hic, rfl⟩ := List.mem_map.mp hx
    exact (hscore ic hic).1
  have hb1 : multiclassBrierSpec y p classes ≤ 1 := by
    rw [multiclassBrierSpec]
    apply npMean_le henne
    intro x hx
    obtain ⟨ic, hic, rfl⟩ := List.mem_map.mp hx
    exact (hscore ic hic).2
  -- the zero characterisation
  have hiff : multiclassBrierSpec y p classes = 0 ↔
      oneHotAtTruth y p classes := by
    rw [multiclassBrierSpec]
    rw [npMean_eq_zero_iff henne (fun x hx => by
      obtain ⟨ic, hic, rfl⟩ := List.mem_map.mp hx
      exact (hscore ic hic).1)]
    constructor
    · -- all per-class means are zero ⇒ one-hot rows
      intro hall j hj
      have hpt : ∀ k, k < classes.length →
          (p.getD j []).getD k 0 =
            if y.getD j 0 = classes.getD k 0 then 1 else 0 := by
        intro k hk
        have hick : (k, classes[k]) ∈ classes.enum := by
          have hkl : k < classes.enum.length := by
            rw [List.enum_length]; exact hk
          have := List.getElem_enum classes k hkl
          rw [← this]
          exact List.getElem_mem hkl
        have hmean := hall _ (List.mem_map_of_mem _ hick)
        have hzero := (npMean_eq_zero_iff (hzne k classes[k])
          (fun x hx => (zipWith_sq_bounds hrows hk x hx).1)).mp hmean
        have hjz : j < (List.zipWith (fun a b => (a - b) ^ 2)
            (y.map (fun t => if t = classes[k] then (1:ℚ) else 0))
            (colD p k)).length := by
          rw [hzlen]; exact hj
        have hx := hzero _ (List.getElem_mem hjz)
        rw [List.getElem_zipWith] at hx
        have hjy : j < y.length := by omega
        have hjy' : j < (y.map
            (fun t => if t = classes[k] then (1:ℚ) else 0)).length := by
          rw [List.length_map]; omega
        have hjc : j < (colD p k).length := by
          rw [colD, List.length_map]; omega
        rw [List.getElem_map] at hx
        have hcol : (colD p k)[j] = (p[j]).getD k 0 := by
          simp only [colD, List.getElem_map]
        rw [hcol] at hx
        have := sub_eq_zero.mp (sq_eq_zero_iff.mp hx)
        rw [List.getD_eq_getElem _ _ hj, List.getD_eq_getElem _ _ hjy,
          List.getD_eq_getElem _ _ hk]
        rw [← this]
      -- find the column of the true label
      have hex : ∃ k, k < classes.length ∧ classes.getD k 0 = y.getD j 0 := by
        by_contra hnok
        push_neg at hnok
        have hrow := hrows (p.getD j []) (getD_mem [] hj)
        have hz : ∀ k, k < (p.getD j []).length →
            (p.getD j []).getD k 0 = 0 := by
          intro k hk
          rw [hrow.1] at hk
          rw [hpt k hk]
          rw [if_neg (fun he => hnok k hk he.symm)]
        have := list_sum_eq_zero_of_getD hz
        rw [hrow.2.2] at this
        norm_num at this
      obtain ⟨k, hk, hck⟩ := hex
      refine ⟨k, hk, hck, ?_⟩
      intro i hi
      rw [hpt i hi]
      by_cases hik : i = k
      · subst hik
        rw [if_pos hck.symm, if_pos rfl]
      · rw [if_neg, if_neg hik]
        intro he
        apply hik
        have h1 : classes.getD i 0 = classes.getD k 0 := by rw [← he, hck]
        rw [List.getD_eq_getElem _ _ hi, List.getD_eq_getElem _ _ hk] at h1
        exact (List.Nodup.getElem_inj_iff hnodup).mp h1
    · -- one-hot rows ⇒ all per-class means are zero
      intro hoh x hx
      obtain ⟨ic, hic, rfl⟩ := List.mem_map.mp hx
      obtain ⟨i, c⟩ := ic
      obtain ⟨hi, hc⟩ := List.mem_enum hic
      apply (npMean_eq_zero_iff (hzne i c)
        (fun z hz => (zipWith_sq_bounds hrows hi z hz).1)).mpr
      intro z hz
      obtain ⟨n, hn, rfl⟩ := List.mem_iff_getElem.mp hz
      rw [List.getElem_zipWith]
      have hnp : n < p.length := by
        have := hn; rw [hzlen] at this; exact this
      have hny : n < y.length := by omega
      obtain ⟨k₀, hk₀, hck₀, hrowoh⟩ := hoh n hnp
      have hnc : n < (colD p i).length := by
        rw [colD, List.length_map]; exact hnp
      have hcol : (colD p i)[n] = (p[n]).getD i 0 := by
        simp only [colD, List.getElem_map]
      rw [List.getElem_map, hcol]
      apply sq_eq_zero_iff.mpr
      apply sub_eq_zero.mpr
      have hval := hrowoh i hi
      rw [List.getD_eq_getElem _ _ hnp] at hval
      rw [hval]
      rw [List.getD_eq_getElem _ _ hny, List.getD_eq_getElem _ _ hk₀] at hck₀
      by_cases hik : i = k₀
      · subst hik
        have hyc : y[n] = c := by rw [hc]; exact hck₀.symm
        rw [if_pos hyc, if_pos rfl]
      · rw [if_neg hik, if_neg]
        intro he
        apply hik
        have h1 : classes[i] = classes[k₀] := by
          rw [← hc, ← he]
          exact hck₀.symm
        exact (List.Nodup.getElem_inj_iff hnodup).mp h1
  exact ⟨hok, hb0, hb1, hiff⟩

/-! ## Claim C1 witness -/

theorem brier_spec_correct_witness :
    multiclass_brier [0, 1] [[1, 0], [0, 1]] [0, 1] =
      Except.ok (multiclassBrierSpec [0, 1] [[1, 0], [0, 1]] [0, 1]) ∧
    0 ≤ multiclassBrierSpec [0, 1] [[1, 0], [0, 1]] [0, 1] ∧
    multiclassBrierSpec [0, 1] [[1, 0], [0, 1]] [0, 1] ≤ 1 ∧
    (multiclassBrierSpec [0, 1] [[1, 0], [0, 1]] [0, 1] = 0 ↔
      oneHotAtTruth [0, 1] [[1, 0], [0, 1]] [0, 1]) :=
  brier_spec_correct [0, 1] [[1, 0], [0, 1]] [0, 1] rfl (by simp) (by decide)
    (by
      intro row hr
      fin_cases hr
      · exact ⟨rfl, by intro q hq; fin_cases hq <;> norm_num, by norm_num⟩
      · exact ⟨rfl, by intro q hq; fin_cases hq <;> norm_num, by norm_num⟩)

/-! ## Claim C9 -/

/-- C9: the predicted label of every row — computed as
classes[np.argmax(row)] on metrics.py line 44 and again inside the ECE on
lines 27–29 — is the class at the argmax of the row, and np.argmax breaks
ties toward the lowest index: the value at the returned index is the row
maximum, and every strictly earlier index holds a strictly smaller
value. -/
theorem argmax_prediction_lowest_tie (p : List (List ℚ))
    (classes : List Label) :
    predictions p = p.map npArgmax ∧
    predsOf p classes = p.mapM (fun row =>
      match classes[npArgmax row]? with
      | some c => Except.ok c
      | none => Except.error EvalErr.indexError) ∧
    ∀ row ∈ p, row ≠ [] →
      npArgmax row < row.length ∧
      row.getD (npArgmax row) 0 = npMax row ∧
      (∀ j, j < row.length → row.getD j 0 ≤ npMax row) ∧
      (∀ j, j < npArgmax row → row.getD j 0 < npMax row) := by
  refine ⟨rfl, rfl, ?_⟩
  intro row _ hne
  refine ⟨npArgmax_lt_length hne, getD_npArgmax hne, ?_, ?_⟩
  · intro j hj
    exact le_npMax (getD_mem 0 hj)
  · intro j hj
    exact lt_of_lt_npArgmax hj

theorem argmax_prediction_lowest_tie_witness :
    npArgmax [(1:ℚ)/2, 1/2] < 2 ∧
    [(1:ℚ)/2, 1/2].getD (npArgmax [(1:ℚ)/2, 1/2]) 0 = npMax [(1:ℚ)/2, 1/2] := by
  have h := argmax_prediction_lowest_tie [[(1:ℚ)/2, 1/2]] [0, 1]
  obtain ⟨h1, h2, _, _⟩ :=
    h.2.2 [(1:ℚ)/2, 1/2] (List.mem_cons_self _ _) (by simp)
  exact ⟨h1, h2⟩

/-! ## Claim C6 -/

/-- C6 is contradicted by the code: `evaluate` performs no shape check and
there is no ShapeMismatchError anywhere.  On a 2×2 probability matrix with
a 3-class list it computes the predictions, report and confusion matrix,
and only then faults with NumPy's IndexError when `multiclass_brier` reads
the missing third column. -/
theorem evaluate_shape_mismatch_index_error :
    evaluate [0, 0] [[1, 0], [0, 1]] [0, 1, 2] =
      Except.error EvalErr.indexError := by
  rfl

/-! ## Claim C7 -/

/-- C7 is contradicted by the code: the fold split in run_cv.main uses
sklearn's StratifiedKFold, which — for labels with a 2-member class and a
5-member class and k = 5 — only emits a UserWarning and proceeds to build
folds; no InsufficientSamplesError exists and no error is raised. -/
theorem stratified_kfold_small_class_proceeds :
    stratifiedKFoldCheck [0, 0, 1, 1, 1, 1, 1] 5 =
      SplitOutcome.proceeds true := by
  decide

/-! ## Claim C5 -/

/-- C5: `bootstrap_ci` is deterministic in (values, n_boot, alpha, seed):
two runs under different ambient entropy environments return identical
results, because the generator is derived from the seed argument alone and
the ambient source is never consulted. -/
theorem bootstrap_ci_ambient_independent (amb₁ amb₂ : ℕ → ℕ)
    (values : List ℚ) (n_boot : ℕ) (alpha : ℚ) (seed : ℕ) :
    bootstrap_ci amb₁ values n_boot alpha seed =
      bootstrap_ci amb₂ values n_boot alpha seed := rfl

/-! ## Claim C8, counterexample -/

/-- C8 as stated is false at this input: the class list supplied to
`evaluate` is [0, 1], but only label 0 is ever observed, and the report —
built without a labels argument — contains no row for class 1. -/
theorem report_missing_supplied_class :
    (evaluate [0] [[1, 0]] [0, 1]).map
      (fun r => r.report.perClass.lookup 1) = Except.ok none := by
  obtain ⟨b, hb⟩ : ∃ b, multiclass_brier [0] [[(1:ℚ), 0]] [0, 1] =
      Except.ok b := ⟨_, rfl⟩
  have hpreds : predsOf [[(1:ℚ), 0]] [0, 1] = Except.ok [0] := by rfl
  have hobs : observedLabels [0] [0] = [0] := by
    simp [observedLabels, List.mergeSort]
  simp [evaluate, hpreds, hb, classification_report, hobs, List.lookup]
  simp [Except.map, List.lookup]

/-! ### Counting lemmas for the report -/

theorem length_filter_split {α : Type} (l : List α) (P Q : α → Bool) :
    (l.filter P).length =
      (l.filter (fun x => P x && Q x)).length +
      (l.filter (fun x => P x && !Q x)).length := by
  induction l with
  | nil => rfl
  | cons x t ih =>
    rw [List.filter_cons, List.filter_cons, List.filter_cons]
    cases hP : P x <;> cases hQ : Q x <;> simp [hP, hQ, ih] <;> omega

theorem zip_filter_snd (y preds : List Label) (h : y.length = preds.length)
    (f : Label → Bool) :
    ((y.zip preds).filter (fun tp => f tp.2)).length =
      (preds.filter f).length := by
  induction y generalizing preds with
  | nil =>
    cases preds with
    | nil => rfl
    | cons b u => simp at h
  | cons a t ih =>
    cases preds with
    | nil => simp at h
    | cons b u =>
      rw [List.zip_cons_cons, List.filter_cons, List.filter_cons]
      have h' : t.length = u.length := by simpa using h
      cases hf : f b <;> simp [hf, ih u h']

theorem zip_filter_fst (y preds : List Label) (h : y.length = preds.length)
    (f : Label → Bool) :
    ((y.zip preds).filter (fun tp => f tp.1)).length =
      (y.filter f).length := by
  induction y generalizing preds with
  | nil =>
    cases preds with
    | nil => rfl
    | cons b u => simp at h
  | cons a t ih =>
    cases preds with
    | nil => simp at h
    | cons b u =>
      rw [List.zip_cons_cons, List.filter_cons, List.filter_cons]
      have h' : t.length = u.length := by simpa using h
      cases hf : f a <;> simp [hf, ih u h']

theorem countPred_eq (y preds : List Label) (c : Label)
    (h : y.length = preds.length) :
    countPred preds c = countTP y preds c + countFP y preds c := by
  rw [countPred, ← zip_filter_snd y preds h (fun t => decide (t = c))]
  rw [length_filter_split ((y.zip preds))
    (fun tp => decide (tp.2 = c)) (fun tp => decide (tp.1 = c))]
  congr 1
  · rw [countTP]
    congr 1
    apply List.filter_congr
    intro tp _
    cases h1 : decide (tp.1 = c) <;> cases h2 : decide (tp.2 = c) <;> simp [h1, h2]
  · rw [countFP]
    congr 1
    apply List.filter_congr
    intro tp _
    cases h1 : decide (tp.1 = c) <;> cases h2 : decide (tp.2 = c) <;>
      simp_all [decide_eq_true_eq]

theorem countTrue_eq (y preds : List Label) (c : Label)
    (h : y.length = preds.length) :
    countTrue y c = countTP y preds c + countFN y preds c := by
  rw [countTrue, ← zip_filter_fst y preds h (fun t => decide (t = c))]
  rw [length_filter_split ((y.zip preds))
    (fun tp => decide (tp.1 = c)) (fun tp => decide (tp.2 = c))]
  congr 1
  · rw [countFN]
    congr 1
    apply List.filter_congr
    intro tp _
    cases h1 : decide (tp.1 = c) <;> cases h2 : decide (tp.2 = c) <;>
      simp_all [decide_eq_true_eq]

theorem lookup_map_self {β : Type} (l : List Label) (f : Label → β)
    (hnd : l.Nodup) {c : Label} (hc : c ∈ l) :
    (l.map (fun x => (x, f x))).lookup c = some (f c) := by
  induction l with
  | nil => cases hc
  | cons a t ih =>
    rw [List.map_cons]
    rcases List.mem_cons.mp hc with h | h
    · subst h; simp [List.lookup]
    · have hne : c ≠ a := fun he => (List.nodup_cons.mp hnd).1 (he ▸ h)
      have hbeq : (c == a) = false := beq_eq_false_iff_ne.mpr hne
      simp [List.lookup, hbeq, ih (List.nodup_cons.mp hnd).2 h]

theorem observedLabels_nodup (y preds : List Label) :
    (observedLabels y preds).Nodup :=
  ((List.mergeSort_perm _ _).nodup_iff).mpr (List.nodup_dedup _)

/-! ## Claim C8, amended theorem -/

/-- C8 (amended): the classification report covers the observed labels
(the sorted union of the true and predicted labels — not the supplied
class list); each covered class receives precision TP/(TP+FP), recall
TP/(TP+FN), F1 = 2PR/(P+R) and support = count of true instances, with a
zero denominator reported as 0 and no division fault; the macro-average
row holds the unweighted means over the covered classes and the accuracy
is the fraction of correct predictions. -/
theorem report_observed_classes_stats (y preds : List Label)
    (hlen : y.length = preds.length) :
    (∀ c ∈ observedLabels y preds,
      (classification_report y preds).perClass.lookup c =
        some (classStats y preds c) ∧
      countPred preds c = countTP y preds c + countFP y preds c ∧
      countTrue y c = countTP y preds c + countFN y preds c ∧
      (classStats y preds c).precision =
        (if countTP y preds c + countFP y preds c = 0 then 0
         else (countTP y preds c : ℚ) /
           ((countTP y preds c : ℚ) + (countFP y preds c : ℚ))) ∧
      (classStats y preds c).recl =
        (if countTP y preds c + countFN y preds c = 0 then 0
         else (countTP y preds c : ℚ) /
           ((countTP y preds c : ℚ) + (countFN y preds c : ℚ))) ∧
      (classStats y preds c).f1 =
        (if (classStats y preds c).precision + (classStats y preds c).recl = 0
         then 0
         else 2 * (classStats y preds c).precision *
           (classStats y preds c).recl /
           ((classStats y preds c).precision + (classStats y preds c).recl)) ∧
      (classStats y preds c).support = (countTrue y c : ℚ)) ∧
    (classification_report y preds).perClass.map Prod.fst =
      observedLabels y preds ∧
    (classification_report y preds).macroAvg.precision =
      npMean ((observedLabels y preds).map
        (fun c => (classStats y preds c).precision)) ∧
    (classification_report y preds).macroAvg.recl =
      npMean ((observedLabels y preds).map
        (fun c => (classStats y preds c).recl)) ∧
    (classification_report y preds).macroAvg.f1 =
      npMean ((observedLabels y preds).map
        (fun c => (classStats y preds c).f1)) ∧
    (classification_report y preds).accuracy =
      (((y.zip preds).filter (fun tp => decide (tp.1 = tp.2))).length : ℚ) /
        (y.length : ℚ) := by
  refine ⟨?_, ?_, rfl, rfl, rfl, rfl⟩
  · intro c hc
    have hpp := countPred_eq y preds c hlen
    have htt := countTrue_eq y preds c hlen
    refine ⟨?_, hpp, htt, ?_, ?_, ?_, ?_⟩
    · exact lookup_map_self _ _ (observedLabels_nodup y preds) hc
    · show (if countPred preds c = 0 then (0:ℚ)
          else (countTP y preds c : ℚ) / (countPred preds c)) = _
      rw [hpp]
      by_cases h0 : countTP y preds c + countFP y preds c = 0
      · rw [if_pos h0, if_pos h0]
      · rw [if_neg h0, if_neg h0]
        push_cast
        rfl
    · show (if countTrue y c = 0 then (0:ℚ)
          else (countTP y preds c : ℚ) / (countTrue y c)) = _
      rw [htt]
      by_cases h0 : countTP y preds c + countFN y preds c = 0
      · rw [if_pos h0, if_pos h0]
      · rw [if_neg h0, if_neg h0]
        push_cast
        rfl
    · rfl
    · rfl
  · show (((observedLabels y preds).map
        (fun c => (c, classStats y preds c))).map Prod.fst) =
      observedLabels y preds
    rw [List.map_map]
    exact List.map_id' _

theorem report_observed_classes_stats_witness :
    (classification_report [0, 1] [0, 0]).perClass.lookup 0 =
      some (classStats [0, 1] [0, 0] 0) ∧
    countPred [0, 0] 0 = countTP [0, 1] [0, 0] 0 + countFP [0, 1] [0, 0] 0 := by
  have h := report_observed_classes_stats [0, 1] [0, 0] rfl
  have hm : (0 : Label) ∈ observedLabels [0, 1] [0, 0] := by
    rw [observedLabels]
    rw [List.mem_mergeSort, List.mem_dedup]
    simp
  exact ⟨(h.1 0 hm).1, (h.1 0 hm).2.1⟩

/-! ### Percentile lemmas for the bootstrap interval -/

theorem mergeSort_sorted (xs : List ℚ) :
    List.Pairwise (fun a b : ℚ => a ≤ b)
      (xs.mergeSort (fun a b => decide (a ≤ b))) := by
  have := @List.sorted_mergeSort ℚ (fun a b : ℚ => decide (a ≤ b))
    (fun a b c hab hbc => by
      simp only [decide_eq_true_eq] at hab hbc ⊢
      exact le_trans hab hbc)
    (fun a b => by
      simp only [Bool.or_eq_true, decide_eq_true_eq]
      exact le_total a b)
    xs
  exact this.imp (fun h => by simpa using h)

theorem sorted_getD_mono {s : List ℚ}
    (hs : List.Pairwise (fun a b : ℚ => a ≤ b) s) {a b : ℕ}
    (hab : a ≤ b) (hb : b < s.length) : s.getD a 0 ≤ s.getD b 0 := by
  rcases Nat.lt_or_ge a b with h | h
  · rw [List.getD_eq_getElem _ _ (by omega), List.getD_eq_getElem _ _ hb]
    exact List.pairwise_iff_getElem.mp hs a b (by omega) hb h
  · have : a = b := by omega
    subst this
    exact le_refl _

theorem interp_mono {s : List ℚ} {m : ℕ} (hm : 1 ≤ m) (hslen : s.length = m)
    (hsorted : List.Pairwise (fun a b : ℚ => a ≤ b) s) {h1 h2 : ℚ}
    (h1nn : 0 ≤ h1) (h12 : h1 ≤ h2) (h2ub : h2 ≤ (m : ℚ) - 1) :
    (if (⌊h1⌋).toNat + 1 < m then
      s.getD (⌊h1⌋).toNat 0 +
        (h1 - ((⌊h1⌋).toNat : ℚ)) *
          (s.getD ((⌊h1⌋).toNat + 1) 0 - s.getD (⌊h1⌋).toNat 0)
    else s.getD (m - 1) 0) ≤
    (if (⌊h2⌋).toNat + 1 < m then
      s.getD (⌊h2⌋).toNat 0 +
        (h2 - ((⌊h2⌋).toNat : ℚ)) *
          (s.getD ((⌊h2⌋).toNat + 1) 0 - s.getD (⌊h2⌋).toNat 0)
    else s.getD (m - 1) 0) := by
  have h2nn : 0 ≤ h2 := le_trans h1nn h12
  have hf1 : 0 ≤ ⌊h1⌋ := Int.floor_nonneg.mpr h1nn
  have hf2 : 0 ≤ ⌊h2⌋ := Int.floor_nonneg.mpr h2nn
  have hc1 : (((⌊h1⌋).toNat : ℚ)) = ((⌊h1⌋ : ℤ) : ℚ) := by
    exact_mod_cast congrArg (fun z : ℤ => (z : ℚ)) (Int.toNat_of_nonneg hf1)
  have hc2 : (((⌊h2⌋).toNat : ℚ)) = ((⌊h2⌋ : ℤ) : ℚ) := by
    exact_mod_cast congrArg (fun z : ℤ => (z : ℚ)) (Int.toNat_of_nonneg hf2)
  have hi12 : (⌊h1⌋).toNat ≤ (⌊h2⌋).toNat :=
    Int.toNat_le_toNat (Int.floor_le_floor h12)
  have hub : (⌊h2⌋).toNat ≤ m - 1 := by
    have hmq : ((m : ℚ) - 1) = (((m - 1 : ℕ)) : ℚ) := by
      push_cast [Nat.cast_sub hm]
      ring
    have : ⌊h2⌋ ≤ ((m - 1 : ℕ) : ℤ) := by
      rw [← Int.floor_natCast (α := ℚ) (m - 1)]
      exact Int.floor_le_floor (by rw [← hmq]; exact h2ub)
    omega
  have hfr1lo : 0 ≤ h1 - ((⌊h1⌋).toNat : ℚ) := by
    rw [hc1]; have := Int.floor_le h1; linarith
  have hfr1hi : h1 - ((⌊h1⌋).toNat : ℚ) < 1 := by
    rw [hc1]; have := Int.lt_floor_add_one h1; linarith
  have hfr2lo : 0 ≤ h2 - ((⌊h2⌋).toNat : ℚ) := by
    rw [hc2]; have := Int.floor_le h2; linarith
  set i1 := (⌊h1⌋).toNat with hi1def
  set i2 := (⌊h2⌋).toNat with hi2def
  by_cases hb1 : i1 + 1 < m <;> by_cases hb2 : i2 + 1 < m
  · rw [if_pos hb1, if_pos hb2]
    rcases Nat.lt_or_ge i1 i2 with hlt | hge
    · -- different segments: pass through s(i1+1) ≤ s(i2)
      have hd1 : 0 ≤ s.getD (i1 + 1) 0 - s.getD i1 0 := by
        have := sorted_getD_mono hsorted (Nat.le_succ i1) (by omega)
        linarith
      have hstep1 : s.getD i1 0 +
          (h1 - (i1 : ℚ)) * (s.getD (i1 + 1) 0 - s.getD i1 0) ≤
          s.getD (i1 + 1) 0 := by
        have := mul_le_of_le_one_left hd1 (le_of_lt hfr1hi)
        linarith
      have hstep2 : s.getD (i1 + 1) 0 ≤ s.getD i2 0 :=
        sorted_getD_mono hsorted hlt (by omega)
      have hd2 : 0 ≤ s.getD (i2 + 1) 0 - s.getD i2 0 := by
        have := sorted_getD_mono hsorted (Nat.le_succ i2) (by omega)
        linarith
      have hstep3 : s.getD i2 0 ≤ s.getD i2 0 +
          (h2 - (i2 : ℚ)) * (s.getD (i2 + 1) 0 - s.getD i2 0) := by
        have := mul_nonneg hfr2lo hd2
        linarith
      linarith
    · -- same segment
      have heq : i1 = i2 := by omega
      rw [heq] at hfr1hi ⊢
      have hd : 0 ≤ s.getD (i2 + 1) 0 - s.getD i2 0 := by
        have := sorted_getD_mono hsorted (Nat.le_succ i2) (by omega)
        linarith
      have := mul_le_mul_of_nonneg_right
        (show h1 - (i2 : ℚ) ≤ h2 - (i2 : ℚ) by linarith) hd
      linarith
  · rw [if_pos hb1, if_neg hb2]
    have hlt : i1 + 1 ≤ m - 1 := by omega
    have hd1 : 0 ≤ s.getD (i1 + 1) 0 - s.getD i1 0 := by
      have := sorted_getD_mono hsorted (Nat.le_succ i1) (by omega)
      linarith
    have hstep1 : s.getD i1 0 +
        (h1 - (i1 : ℚ)) * (s.getD (i1 + 1) 0 - s.getD i1 0) ≤
        s.getD (i1 + 1) 0 := by
      have := mul_le_of_le_one_left hd1 (le_of_lt hfr1hi)
      linarith
    have hstep2 : s.getD (i1 + 1) 0 ≤ s.getD (m - 1) 0 :=
      sorted_getD_mono hsorted hlt (by omega)
    linarith
  · exfalso; omega
  · rw [if_neg hb1, if_neg hb2]

theorem npPercentile_mono (xs : List ℚ) (hne : xs ≠ []) {q1 q2 : ℚ}
    (h0 : 0 ≤ q1) (h12 : q1 ≤ q2) (h100 : q2 ≤ 100) :
    npPercentile xs q1 ≤ npPercentile xs q2 := by
  have hm : 1 ≤ xs.length := List.length_pos.mpr hne
  have hmq : (0:ℚ) ≤ (xs.length : ℚ) - 1 := by
    have : (1:ℚ) ≤ (xs.length : ℚ) := by exact_mod_cast hm
    linarith
  rw [npPercentile, npPercentile]
  apply interp_mono hm (List.length_mergeSort xs) (mergeSort_sorted xs)
  · positivity
  · have := mul_le_mul_of_nonneg_left h12 hmq
    gcongr
  · rw [div_le_iff (by norm_num : (0:ℚ) < 100)]
    exact mul_le_mul_of_nonneg_left h100 hmq

theorem npPercentile_const {xs : List ℚ} {c : ℚ} (hne : xs ≠ [])
    (hall : ∀ x ∈ xs, x = c) (q : ℚ) : npPercentile xs q = c := by
  have hm : 1 ≤ xs.length := List.length_pos.mpr hne
  have hsall : ∀ x ∈ xs.mergeSort (fun a b => decide (a ≤ b)), x = c := by
    intro x hx
    exact hall x (List.mem_mergeSort.mp hx)
  have hgetD : ∀ i : ℕ, i < xs.length →
      (xs.mergeSort (fun a b => decide (a ≤ b))).getD i 0 = c := by
    intro i hi
    have hi' : i < (xs.mergeSort (fun a b => decide (a ≤ b))).length := by
      rw [List.length_mergeSort]; exact hi
    rw [List.getD_eq_getElem _ _ hi']
    exact hsall _ (List.getElem_mem hi')
  rw [npPercentile]
  by_cases hb : (⌊((xs.length : ℚ) - 1) * q / 100⌋).toNat + 1 < xs.length
  · rw [if_pos hb]
    rw [hgetD _ (by omega), hgetD _ (by omega)]
    ring
  · rw [if_neg hb]
    exact hgetD _ (by omega)

/-! ## Claim C4 -/

/-- C4 as stated is false: with alpha = 3 the requested percentiles
(150 and −50) are outside [0, 100], so np.percentile raises ValueError and
`bootstrap_ci` returns no interval at all (here: none), even though the
values list is nonempty and n_boot positive. -/
theorem bootstrap_ci_alpha_out_of_range :
    bootstrap_ci (fun _ => 0) [1] 1 3 0 = none := by
  rw [bootstrap_ci, if_pos]
  right; right; right
  norm_num

/-- C4 (amended): for every nonempty values list, positive resample count
and alpha in [0, 1], `bootstrap_ci` returns an interval (lo, hi) with
lo ≤ hi; and whenever the input values are all equal to a constant c —
in particular for a single-element input — the interval degenerates to
lo = hi = c. -/
theorem bootstrap_ci_guarantees (amb : ℕ → ℕ) (values : List ℚ)
    (n_boot : ℕ) (alpha : ℚ) (seed : ℕ) (c : ℚ)
    (hne : values ≠ []) (hnb : n_boot ≠ 0) (h0 : 0 ≤ alpha) (h1 : alpha ≤ 1) :
    (Option.elim (bootstrap_ci amb values n_boot alpha seed) False
      (fun lh => lh.1 ≤ lh.2)) ∧
    ((∀ v ∈ values, v = c) →
      Option.elim (bootstrap_ci amb values n_boot alpha seed) False
        (fun lh => lh.1 = c ∧ lh.2 = c)) := by
  have hguard : ¬(values = [] ∨ n_boot = 0 ∨ alpha < 0 ∨ 2 < alpha) := by
    push_neg
    exact ⟨hne, hnb, h0, by linarith⟩
  have hbne : (List.range n_boot).map (resampleMean values seed) ≠ [] := by
    intro hcon
    have := congrArg List.length hcon
    rw [List.length_map, List.length_range, List.length_nil] at this
    exact hnb this
  rw [bootstrap_ci, if_neg hguard]
  constructor
  · show npPercentile _ (100 * (alpha / 2)) ≤ npPercentile _ (100 * (1 - alpha / 2))
    apply npPercentile_mono _ hbne
    · positivity
    · linarith
    · linarith
  · intro hconst
    have hvlen : 0 < values.length := List.length_pos.mpr hne
    have hboots : ∀ b ∈ (List.range n_boot).map (resampleMean values seed),
        b = c := by
      intro b hb
      obtain ⟨k, _, rfl⟩ := List.mem_map.mp hb
      rw [resampleMean]
      apply npMean_const
      · intro hcon
        have := congrArg List.length hcon
        rw [List.length_map, List.length_range, List.length_nil] at this
        omega
      · intro x hx
        obtain ⟨j, _, rfl⟩ := List.mem_map.mp hx
        apply hconst
        exact getD_mem 0 (Nat.mod_lt _ hvlen)
    constructor
    · exact npPercentile_const hbne hboots _
    · exact npPercentile_const hbne hboots _

theorem bootstrap_ci_guarantees_witness :
    (Option.elim (bootstrap_ci (fun _ => 0) [5] 3 (1/20) 0) False
      (fun lh => lh.1 ≤ lh.2)) ∧
    (Option.elim (bootstrap_ci (fun _ => 0) [5] 3 (1/20) 0) False
      (fun lh => lh.1 = 5 ∧ lh.2 = 5)) := by
  have h := bootstrap_ci_guarantees (fun _ => 0) [5] 3 (1/20) 0 5
    (by simp) (by norm_num) (by norm_num) (by norm_num)
  refine ⟨h.1, h.2 ?_⟩
  intro v hv
  simpa using hv

end GpuMl
